import Mathlib

/-!
Verification development for the config-rs hierarchical configuration
library: a shallow embedding of its value tree, deep merge, path
expression language, path evaluator and environment source, with
theorems about the properties stated in the specification.

The embedding mirrors `src/path/mod.rs`, `src/path/parser.rs` and
`src/env.rs`.  The `Value`/`ValueKind` type and `Value::merge`
(`src/value.rs`) are not part of the provided sources and are modelled
(see their doc comments).  Rust's `Map<String, Value>` is modelled as an
association list; mutation through `&mut` references is modelled by a
lens: `get_mut_forcibly` returns the value at the located slot together
with a function rebuilding the (structure-forced) root from a new slot
value.  The diagnostic `origin` field of `Value` carries no semantic
weight (it does not affect equality or merging) and is omitted.
-/

set_option maxHeartbeats 1000000

namespace ConfigRs

/-- Modelled from the spec: the `Value` tagged union of §3
(`src/value.rs` is not among the provided sources).  Variants: Nil,
Boolean, I64, Float, String, Table, Array.  A table is a mapping from
strings to values (association list with unique keys, insertion
ordered); an array is an ordered sequence.  The Float payload is kept as
the numeral text that produced it: no claim depends on floating-point
arithmetic, only on which variant a value has. -/
inductive Value where
  | nil : Value
  | boolean (b : Bool) : Value
  | i64 (n : Int) : Value
  | float (repr : String) : Value
  | string (s : String) : Value
  | table (m : List (String × Value)) : Value
  | array (a : List Value) : Value

/-- Lookup in a table: the value of the first entry with the given key
(Rust `Map::get`). -/
def mapGet (m : List (String × Value)) (k : String) : Option Value :=
  match m with
  | [] => none
  | (k2, v) :: rest => if k2 = k then some v else mapGet rest k

/-- Write into a table: replace the first entry with the given key, or
append a new entry (Rust `Map::insert` / `*existing = value`). -/
def mapSet (m : List (String × Value)) (k : String) (v : Value) : List (String × Value) :=
  match m with
  | [] => [(k, v)]
  | (k2, w) :: rest => if k2 = k then (k2, v) :: rest else (k2, w) :: mapSet rest k v

/-- Rust `Map::entry(k).or_insert_with(|| d)`: ensure an entry for `k`
exists, inserting `d` when absent. -/
def mapEntry (m : List (String × Value)) (k : String) (d : Value) : List (String × Value) :=
  match mapGet m k with
  | some _ => m
  | none => m ++ [(k, d)]

/-- `abs_index` of `src/path/mod.rs`: convert a relative index into an
absolute index.  `Ok` is a usable index, `Err` is the number of missing
positions in front of the array (`(len as isize + index).unsigned_abs()`). -/
def abs_index (index : Int) (len : Nat) : Except Nat Nat :=
  if 0 ≤ index then .ok index.toNat
  else if index.natAbs ≤ len then .ok (len - index.natAbs)
  else .error ((len + index).natAbs)

/-- The path expression AST of `src/path/mod.rs`. -/
inductive Expression where
  | identifier (s : String) : Expression
  | child (e : Expression) (key : String) : Expression
  | subscript (e : Expression) (i : Int) : Expression

/-- `Expression::get` of `src/path/mod.rs`: read-only navigation. -/
def Expression.get : Expression → Value → Option Value
  | .identifier id, root =>
    match root with
    | .table m => mapGet m id
    | _ => none
  | .child e key, root =>
    match e.get root with
    | some v =>
      match v with
      | .table m => mapGet m key
      | _ => none
    | none => none
  | .subscript e i, root =>
    match e.get root with
    | some v =>
      match v with
      | .array a =>
        match abs_index i a.length with
        | .ok u => a[u]?
        | .error _ => none
      | _ => none
    | none => none

/-- The array forcing shared by the `Subscript` arms of
`Expression::get_mut_forcibly` (lines 148-162) and `Expression::set`
(lines 233-247), which contain the same code: resize with Nil padding
when the resolved index is at or beyond the length, left-pad with Nil
entries (making the target index 0) when the index is negative beyond
the front.  Returns the forced array and the target index. -/
def padForce (a : List Value) (i : Int) : List Value × Nat :=
  match abs_index i a.length with
  | .ok u =>
    (if a.length ≤ u then a ++ List.replicate (u + 1 - a.length) .nil else a, u)
  | .error insertion => (List.replicate insertion .nil ++ a, 0)

/-- The shape coercion of the forcing operations: keep a Table's map,
otherwise replace with an empty one (`*value = Map::new().into()`). -/
def asTable : Value → List (String × Value)
  | .table m => m
  | _ => []

/-- The array counterpart (`*value = Vec::new().into()`). -/
def asArray : Value → List Value
  | .array a => a
  | _ => []

/-- `Expression::get_mut_forcibly` of `src/path/mod.rs`.  The Rust
function returns `Option<&mut Value>` into the mutated root; the model
returns the value now at the located slot together with the function
that rebuilds the forced root from a replacement slot value (the two
together are what a mutable reference denotes). -/
def Expression.get_mut_forcibly : Expression → Value → Option (Value × (Value → Value))
  | .identifier id, root =>
    match root with
    | .table m =>
      let m2 := mapEntry m id .nil
      some ((mapGet m2 id).getD .nil, fun w => .table (mapSet m2 id w))
    | _ => none
  | .child e key, root =>
    match e.get_mut_forcibly root with
    | some (v, f) =>
      -- coerce the slot to a table when it is not one
      let m2 := mapEntry (asTable v) key .nil
      some ((mapGet m2 key).getD .nil, fun w => f (.table (mapSet m2 key w)))
    | none => none
  | .subscript e i, root =>
    match e.get_mut_forcibly root with
    | some (v, f) =>
      -- coerce the slot to an array when it is not one
      let p := padForce (asArray v) i
      some (p.1.getD p.2 .nil, fun w => f (.array (p.1.set p.2 w)))
    | none => none

mutual

/-- `Expression::set` of `src/path/mod.rs`.  Returns the updated root. -/
def Expression.set : Expression → Value → Value → Value
  | .identifier id, root, value =>
    -- Ensure that root is a table
    let m := asTable root
    match value with
    | .table incoming =>
      -- Pull out another table and continue the deep merge
      let m2 := mapEntry m id (.table [])
      let target := (mapGet m2 id).getD (.table [])
      .table (mapSet m2 id (setEntries incoming target))
    | _ =>
      -- Just do a simple set
      .table (mapSet m id value)
  | .child e key, root, value =>
    match e.get_mut_forcibly root with
    | some (p, f) =>
      -- Didn't find a table. Oh well. Make a table and do this anyway
      f (Expression.set (.identifier key) (.table (asTable p)) value)
    | none => root
  | .subscript e i, root, value =>
    match e.get_mut_forcibly root with
    | some (p, f) =>
      let q := padForce (asArray p) i
      f (.array (q.1.set q.2 value))
    | none => root
termination_by e _ value => (sizeOf value, sizeOf e)
decreasing_by
  all_goals first
    | (apply Prod.Lex.right; cases e <;> simp <;> omega)
    | (apply Prod.Lex.left; simp; done)
    | (apply Prod.Lex.left; simp; omega)

/-- The `for (key, val) in incoming_map` loop of `Expression::set`'s
Identifier arm: `Identifier(key).set(target, val)` for each entry. -/
def setEntries : List (String × Value) → Value → Value
  | [], target => target
  | (k, v) :: rest, target => setEntries rest (Expression.set (.identifier k) target v)
termination_by l _ => (sizeOf l, 0)
decreasing_by
  all_goals first
    | (apply Prod.Lex.right; cases e <;> simp <;> omega)
    | (apply Prod.Lex.left; simp; done)
    | (apply Prod.Lex.left; simp; omega)

end

mutual

/-- Modelled from the spec: `Value::merge` (`src/value.rs` is not among
the provided sources).  Spec §4.1 words the merge as "tables merge
key-by-key, anything else is replaced wholesale", but the spec's own §8
environment-reconstruction example, the doctest in `src/env.rs` (lines
42-70) and `tests/env.rs::test_env_list_of_structs` pin down a finer
behavior, which the model follows: tables merge key-by-key, arrays merge
index-by-index (extra incoming elements appended), an incoming Nil
preserves the existing value, and in every other combination the
incoming (right-hand) value replaces the existing one. -/
def Value.merge : Value → Value → Value
  | .table a, .table b => .table (mergeEntries a b)
  | .array a, .array b => .array (mergeValues a b)
  | v, .nil => v
  | _, other => other

/-- Key-by-key merge of an incoming table into an existing one:
recursively merge on key collision, insert new keys. -/
def mergeEntries : List (String × Value) → List (String × Value) → List (String × Value)
  | a, [] => a
  | a, (k, v) :: rest =>
    mergeEntries
      (match mapGet a k with
        | some old => mapSet a k (old.merge v)
        | none => a ++ [(k, v)])
      rest

/-- Index-by-index merge of an incoming array into an existing one:
recursively merge at common indices, append the incoming tail. -/
def mergeValues : List Value → List Value → List Value
  | a, [] => a
  | [], w :: rest => w :: mergeValues [] rest
  | v :: a, w :: rest => v.merge w :: mergeValues a rest

end

/-! ## The path parser (`src/path/parser.rs`)

The winnow parsers are modelled as functions from the remaining input
(a list of characters) to a step result.  A failing step records whether
the failure is committed (`cut`, from `cut_err`) — `repeat` stops on a
backtrackable failure and propagates a committed one — and the remaining
input at the failure, from which the error offset reported by
`winnow::error::ParseError` is recovered. -/

/-- Result of running one modelled winnow parser. -/
inductive Step (α : Type) where
  | ok (val : α) (rest : List Char) : Step α
  | fail (cut : Bool) (rest : List Char) : Step α

/-- The character set of `raw_ident`:
`('a'..='z', 'A'..='Z', '0'..='9', '_', '-')` (ASCII only). -/
def isIdentChar (c : Char) : Bool :=
  ('a' ≤ c && c ≤ 'z') || ('A' ≤ c && c ≤ 'Z') || ('0' ≤ c && c ≤ '9') || c == '_' || c == '-'

/-- `raw_ident`: `take_while(1.., …)` over `isIdentChar`. -/
def raw_ident (i : List Char) : Step (List Char) :=
  match i.takeWhile isIdentChar with
  | [] => .fail false i
  | c :: t => .ok (c :: t) (i.dropWhile isIdentChar)

/-- `winnow::ascii::space0`: spaces and tabs. -/
def isSpaceChar (c : Char) : Bool := c == ' ' || c == '\t'

/-- Numeric value of a run of ASCII digits. -/
def digitsVal (ds : List Char) : Nat := ds.foldl (fun a c => 10 * a + (c.toNat - 48)) 0

/-- `opt('-')`: strip one leading minus sign, reporting whether it was
present. -/
def stripNeg (l : List Char) : Bool × List Char :=
  match l with
  | c :: r => if c = '-' then (true, r) else (false, c :: r)
  | [] => (false, [])

/-- The `integer` parser: `space0`, optional `-`, `digit1` mapped
through `isize::from_str` (64-bit range check), `space0`. -/
def integer (i : List Char) : Step Int :=
  let i1 := i.dropWhile isSpaceChar
  let s := stripNeg i1
  match s.2.takeWhile Char.isDigit with
  | [] => .fail false s.2
  | ds =>
    let i3 := s.2.dropWhile Char.isDigit
    let n : Int := if s.1 then -(digitsVal ds : Int) else (digitsVal ds : Int)
    if -(2 ^ 63) ≤ n ∧ n < 2 ^ 63 then .ok n (i3.dropWhile isSpaceChar)
    else .fail false i1

/-- Body of the `'['` branch of `postfix`:
`cut_err(seq!(integer, ']'))`. -/
def subscriptBody (i : List Char) : Step Int :=
  match integer i with
  | .ok n r =>
    match r with
    | ']' :: r2 => .ok n r2
    | _ => .fail true r
  | .fail _ r => .fail true r

/-- The parser's `Child` helper enum: one postfix element. -/
inductive Child where
  | key (k : List Char) : Child
  | index (i : Int) : Child

/-- The `postfix` parser of `src/path/parser.rs` (name adjusted):
dispatch on one consumed character; `[`, `.` commit via `cut_err`, any
other consumed character is a committed failure, an empty input is a
backtrackable failure that ends `repeat`. -/
def postfixOp (i : List Char) : Step Child :=
  match i with
  | [] => .fail false []
  | '[' :: r =>
    match subscriptBody r with
    | .ok n r2 => .ok (.index n) r2
    | .fail _ r2 => .fail true r2
  | '.' :: r =>
    match raw_ident r with
    | .ok k r2 => .ok (.key k) r2
    | .fail _ r2 => .fail true r2
  | _ :: r => .fail true r

/-- The fold step of `path`: `Child::Key` chains `Expression::Child`,
`Child::Index` chains `Expression::Subscript`. -/
def applySeg (e : Expression) : Child → Expression
  | .key k => .child e ⟨k⟩
  | .index n => .subscript e n

/-- `repeat(0.., postfix).fold(...)`: iterate `postfixOp`, folding each
parsed element; stop at a backtrackable failure, propagate a committed
one.  (winnow's `repeat` rejects an iteration that consumes nothing;
`postfixOp` always consumes on success, so that guard is dead code.) -/
def repeatFold (acc : Expression) : Nat → List Char → Step Expression
  | 0, i => .fail true i
  | fuel + 1, i =>
    match postfixOp i with
    | .ok c r => repeatFold (applySeg acc c) fuel r
    | .fail true r => .fail true r
    | .fail false _ => .ok acc i

/-- The `path` parser: an identifier, then folded postfix elements.
`postfixOp` consumes at least one character whenever it succeeds, so a
fuel of one more than the remaining length never runs out. -/
def path (i : List Char) : Step Expression :=
  match raw_ident i with
  | .ok s r => repeatFold (.identifier ⟨s⟩) (r.length + 1) r
  | .fail b r => .fail b r

/-- `from_str` of `src/path/parser.rs`: run `path` over the whole input
(`Parser::parse` demands the input be fully consumed).  An error carries
the offset of the offending input position, as
`winnow::error::ParseError` does. -/
def from_str (l : List Char) : Except Nat Expression :=
  match path l with
  | .ok e [] => .ok e
  | .ok _ rest => .error (l.length - rest.length)
  | .fail _ rest => .error (l.length - rest.length)

/-! ## The environment source (`src/env.rs`)

String manipulation (`to_lowercase`, `replace`, `split`, `starts_with`,
prefix stripping) is modelled over the character lists underlying Lean
strings.  `String::to_lowercase` is modelled as per-character ASCII
lowering (`Char.toLower`); the claims only exercise ASCII case folding.
Rust's byte-based prefix stripping `key[prefix_pattern.len()..]`
coincides with dropping the pattern's characters because it is only
reached when the pattern is a prefix of the key. -/

/-- `str::to_lowercase`, modelled per character. -/
def lowerStr (s : String) : String := ⟨s.data.map Char.toLower⟩

/-- Split a list at the first occurrence of a needle: the part before
the needle and the part after it. -/
def breakOn (nd : List Char) (l : List Char) : Option (List Char × List Char) :=
  if nd.isPrefixOf l then some ([], l.drop nd.length)
  else
    match l with
    | [] => none
    | c :: r => (breakOn nd r).map (fun p => (c :: p.1, p.2))

/-- Recursion core of `str::replace`; the fuel is at least one more
than the length of the remaining text, which suffices because each found
occurrence of the (non-empty) needle shortens the remainder. -/
def replaceGo (nd rep : List Char) : Nat → List Char → List Char
  | 0, l => l
  | fuel + 1, l =>
    match breakOn nd l with
    | none => l
    | some (a, b) => a ++ rep ++ replaceGo nd rep fuel b

/-- `str::replace`: replace every (non-overlapping, left-to-right)
occurrence of a needle.  The empty-needle guard is never reached by the
callers (`collect` only replaces a non-empty separator). -/
def replaceL (nd rep l : List Char) : List Char :=
  if nd = [] then l else replaceGo nd rep (l.length + 1) l

/-- Recursion core of `str::split`, with the same fuel convention. -/
def splitGo (nd : List Char) : Nat → List Char → List (List Char)
  | 0, l => [l]
  | fuel + 1, l =>
    match breakOn nd l with
    | none => [l]
    | some (a, b) => a :: splitGo nd fuel b

/-- `str::split` by a pattern: the segments between occurrences of the
needle (always at least one segment). -/
def splitOnL (nd : List Char) (l : List Char) : List (List Char) :=
  if nd = [] then [l] else splitGo nd (l.length + 1) l

/-- `str::replace` over strings. -/
def replaceStr (s nd rep : String) : String := ⟨replaceL nd.data rep.data s.data⟩

/-- `str::starts_with` for a string pattern. -/
def startsW (s pat : String) : Bool := pat.data.isPrefixOf s.data

/-- `key[prefix_pattern.len()..]`: strip a matched pattern. -/
def dropPre (s pat : String) : String := ⟨s.data.drop pat.data.length⟩

/-- `bool::from_str` (the collector applies it to the lowercased
value). -/
def parseBoolR (s : String) : Option Bool :=
  if s = "true" then some true else if s = "false" then some false else none

/-- `i64::from_str`: optional sign, one or more ASCII digits, 64-bit
signed range. -/
def parseI64 (s : String) : Option Int :=
  let p := match s.data with
    | '+' :: r => ((1 : Int), r)
    | '-' :: r => ((-1 : Int), r)
    | r => ((1 : Int), r)
  if p.2 ≠ [] ∧ p.2.all Char.isDigit then
    let n := p.1 * (digitsVal p.2 : Int)
    if -(2 ^ 63) ≤ n ∧ n ≤ 2 ^ 63 - 1 then some n else none
  else none

/-- `usize::from_str` (used on path segments for index reconstruction):
optional `+`, one or more ASCII digits, 64-bit unsigned range. -/
def parseUsize (s : List Char) : Option Nat :=
  let ds := match s with
    | '+' :: r => r
    | r => r
  if ds ≠ [] ∧ ds.all Char.isDigit ∧ digitsVal ds < 2 ^ 64 then some (digitsVal ds)
  else none

/-- Mantissa-and-exponent part of the `f64::from_str` grammar. -/
def isF64Core (l : List Char) : Bool :=
  let ds1 := l.takeWhile Char.isDigit
  let r1 := l.dropWhile Char.isDigit
  let p :=
    match r1 with
    | '.' :: r =>
      (!ds1.isEmpty || !(r.takeWhile Char.isDigit).isEmpty, r.dropWhile Char.isDigit)
    | _ => (!ds1.isEmpty, r1)
  p.1 &&
    (match p.2 with
     | [] => true
     | e :: r =>
       (e == 'e' || e == 'E') &&
       (let r4 := match r with
          | '+' :: rr => rr
          | '-' :: rr => rr
          | rr => rr
        !(r4.takeWhile Char.isDigit).isEmpty && (r4.dropWhile Char.isDigit).isEmpty))

/-- `f64::from_str` acceptance: optional sign, then `inf`, `infinity`,
`nan` (case-insensitive) or a decimal number with optional fraction and
exponent.  Only acceptance is modelled: the collector stores the
original text in the `Value.float` payload. -/
def isF64 (s : String) : Bool :=
  let l := match s.data with
    | '+' :: r => r
    | '-' :: r => r
    | r => r
  let low := l.map Char.toLower
  low == "inf".data || low == "infinity".data || low == "nan".data || isF64Core l

/-- The `Environment` source configuration (`src/env.rs`).  Field names
`prefixOpt`/`preSep`/`keepPre` stand for the Rust fields `prefix`,
`prefix_separator` and `keep_prefix`.  The `convert_case` field is
feature-gated (`convert-case`) and not modelled; the alternate `source`
map is passed to `collect` directly as a list of pairs (its iteration
order), and the live process environment (`source == None`) is outside
the model. -/
structure Environment where
  prefixOpt : Option String
  preSep : Option String
  separator : Option String
  listSep : Option String
  listParseKeys : Option (List String)
  ignoreEmpty : Bool
  tryParsing : Bool
  keepPre : Bool

/-- The resolved prefix separator: `prefix_separator`, else `separator`,
else `"_"`. -/
def psepResolved (env : Environment) : String :=
  match env.preSep, env.separator with
  | some pre, _ => pre
  | none, some sep => sep
  | none, none => "_"

/-- The lowercased prefix test pattern
`format!("{prefix}{prefix_separator}").to_lowercase()`. -/
def prePattern (env : Environment) : Option String :=
  env.prefixOpt.map (fun p => lowerStr (p ++ psepResolved env))

/-- The `value_kind` computation of the collector: under `try_parsing`,
try bool (on the lowercased value), then i64, then f64, then the
optional list split (restricted to `list_parse_keys` when set), else
fall back to String.  `key` is the full separator-replaced key, as in
the source. -/
def tryParseValue (env : Environment) (key : String) (v : String) : Value :=
  if env.tryParsing then
    match parseBoolR (lowerStr v) with
    | some b => .boolean b
    | none =>
      match parseI64 v with
      | some n => .i64 n
      | none =>
        if isF64 v then .float v
        else
          match env.listSep with
          | some sep =>
            match env.listParseKeys with
            | some keys =>
              if keys.contains key then
                .array ((splitOnL sep.data v.data).map (fun s => .string ⟨s⟩))
              else .string v
            | none => .array ((splitOnL sep.data v.data).map (fun s => .string ⟨s⟩))
          | none => .string v
  else .string v

/-- The per-variable closure of `Environment::collect` (`src/env.rs`
lines 309-406): filter, lowercase, strip prefix, replace the separator,
type the value, rebuild the nested tree from the dotted key (numeric
segments become Nil-padded array indices) and merge the single-entry
table into the accumulator. -/
def collector (env : Environment) (m : Value) (kv : String × String) : Except String Value :=
  if env.ignoreEmpty ∧ kv.2 = "" then .ok m
  else
    let key1 := lowerStr kv.1
    let filtered : Option (String × String) :=
      match prePattern env with
      | some pp =>
        if startsW key1 pp then some (dropPre key1 pp, if env.keepPre then pp else "")
        else none
      | none => some (key1, "")
    match filtered with
    | none => .ok m
    | some (key2, kept) =>
      let sep := (env.separator.getD "")
      let key3 := if sep ≠ "" then replaceStr key2 sep "." else key2
      let vk := tryParseValue env key3 kv.2
      match splitOnL ['.'] key3.data with
      | [] => .error "No key after prefix"
      | kHead :: kRest =>
        let v := (kRest.reverse).foldl
          (fun value part =>
            match parseUsize part with
            | some index => Value.array ((List.replicate (index + 1) Value.nil).set index value)
            | none => Value.table [(⟨part⟩, value)]) vk
        .ok (m.merge (.table [(kept ++ ⟨kHead⟩, v)]))

/-- `try_for_each` over the source pairs. -/
def collectPairs (env : Environment) : Value → List (String × String) → Except String Value
  | m, [] => .ok m
  | m, kv :: rest =>
    match collector env m kv with
    | .ok m2 => collectPairs env m2 rest
    | .error e => .error e

/-- `Environment::collect`: fold every source pair into an initially
empty table and return the final table (`unreachable!()` in the source
for a non-table result is modelled as an error). -/
def collect (env : Environment) (source : List (String × String)) :
    Except String (List (String × Value)) :=
  match collectPairs env (.table []) source with
  | .ok (.table m) => .ok m
  | .ok _ => .error "unreachable"
  | .error e => .error e

/-- The root as mutated by a call of `get_mut_forcibly` alone (take the
mutable reference, write the located slot back unchanged). -/
def forcedRoot (e : Expression) (root : Value) : Option Value :=
  (e.get_mut_forcibly root).map (fun p => p.2 p.1)

/-! ## Syntactically valid path strings

The spec's path grammar, represented structurally: a root identifier
followed by postfix segments, each either `.identifier` or a bracketed
index with optional surrounding spaces.  `renderPath` produces the
concrete string of such a path; validity states the grammar's side
conditions (non-empty identifiers over the identifier alphabet,
non-empty digit runs, index within the 64-bit signed range so that
`isize::from_str` accepts it). -/

inductive PathSeg where
  | key (s : List Char) : PathSeg
  | idx (sp1 : Nat) (neg : Bool) (ds : List Char) (sp2 : Nat) : PathSeg

/-- Grammar side conditions for one postfix segment. -/
def segValid : PathSeg → Prop
  | .key s => s ≠ [] ∧ ∀ c ∈ s, isIdentChar c
  | .idx _ neg ds _ =>
    ds ≠ [] ∧ (∀ c ∈ ds, c.isDigit) ∧
      (if neg then (digitsVal ds : Int) ≤ 2 ^ 63 else (digitsVal ds : Int) < 2 ^ 63)

/-- Concrete text of one postfix segment. -/
def renderSeg : PathSeg → List Char
  | .key s => '.' :: s
  | .idx sp1 neg ds sp2 =>
    '[' :: (List.replicate sp1 ' ' ++ (if neg then ['-'] else []) ++ ds
      ++ List.replicate sp2 ' ' ++ [']'])

/-- Concrete text of a list of postfix segments. -/
def renderTail (segs : List PathSeg) : List Char :=
  segs.foldr (fun s acc => renderSeg s ++ acc) []

/-- Concrete text of a whole path. -/
def renderPath (root : List Char) (segs : List PathSeg) : List Char :=
  root ++ renderTail segs

/-- The integer denoted by a sign and digit run. -/
def segValue (neg : Bool) (ds : List Char) : Int :=
  if neg then -(digitsVal ds : Int) else (digitsVal ds : Int)

/-- The expression a valid path string denotes. -/
def buildExpr (root : List Char) (segs : List PathSeg) : Expression :=
  segs.foldl
    (fun e s =>
      match s with
      | .key k => .child e ⟨k⟩
      | .idx _ neg ds _ => .subscript e (segValue neg ds))
    (.identifier ⟨root⟩)

/-! ## Lowercase predicates (for the environment claims) -/

/-- Every character of the string is fixed by `Char.toLower`. -/
def LowerS (s : String) : Prop := ∀ c ∈ s.data, c.toLower = c

/-- Every table key anywhere inside the value is lowercase. -/
inductive KeysLower : Value → Prop where
  | nil : KeysLower .nil
  | boolean (b : Bool) : KeysLower (.boolean b)
  | i64 (n : Int) : KeysLower (.i64 n)
  | float (s : String) : KeysLower (.float s)
  | string (s : String) : KeysLower (.string s)
  | table (m : List (String × Value)) :
    (∀ k v, (k, v) ∈ m → LowerS k) →
    (∀ k v, (k, v) ∈ m → KeysLower v) → KeysLower (.table m)
  | array (a : List Value) : (∀ v ∈ a, KeysLower v) → KeysLower (.array a)

/-- Shape test used throughout the claims: is a value a Table? -/
def Value.isTable : Value → Bool
  | .table _ => true
  | _ => false

/-! ## String helper lemmas -/

theorem breakOn_length (nd : List Char) (l : List Char) (a b : List Char)
    (h : breakOn nd l = some (a, b)) : a.length + nd.length + b.length = l.length := by
  induction l generalizing a b with
  | nil =>
    rw [breakOn] at h
    split at h
    · next hp =>
      simp only [Option.some.injEq, Prod.mk.injEq] at h
      obtain ⟨rfl, rfl⟩ := h
      simp [List.isPrefixOf] at hp
      subst hp
      simp
    · simp at h
  | cons c r ih =>
    rw [breakOn] at h
    split at h
    · next hp =>
      simp only [Option.some.injEq, Prod.mk.injEq] at h
      obtain ⟨rfl, rfl⟩ := h
      have hle := List.IsPrefix.length_le (List.isPrefixOf_iff_prefix.mp hp)
      rw [List.length_drop]
      simp only [List.length_nil, List.length_cons] at *
      omega
    · cases hbr : breakOn nd r with
      | none => simp [hbr] at h
      | some p =>
        rw [hbr] at h
        simp only [Option.map_some', Option.some.injEq, Prod.mk.injEq] at h
        obtain ⟨rfl, rfl⟩ : c :: p.1 = a ∧ p.2 = b := ⟨h.1, h.2⟩
        have := ih p.1 p.2 (by rw [hbr])
        simp only [List.length_cons] at *
        omega

/-! ## Association-list lemmas -/

theorem mapGet_mapSet_self (m : List (String × Value)) (k : String) (v : Value) :
    mapGet (mapSet m k v) k = some v := by
  induction m with
  | nil => simp [mapSet, mapGet]
  | cons p rest ih =>
    obtain ⟨k2, w⟩ := p
    by_cases h : k2 = k <;> simp [mapSet, mapGet, h, ih]

theorem mapGet_mapSet_ne (m : List (String × Value)) (k k2 : String) (v : Value)
    (h : k2 ≠ k) : mapGet (mapSet m k v) k2 = mapGet m k2 := by
  induction m with
  | nil => simp [mapSet, mapGet, Ne.symm h]
  | cons p rest ih =>
    obtain ⟨k3, w⟩ := p
    by_cases h3 : k3 = k
    · subst h3
      simp [mapSet, mapGet, Ne.symm h]
    · simp [mapSet, mapGet, h3, ih]

theorem mapGet_append_right (m m2 : List (String × Value)) (k : String)
    (h : mapGet m k = none) : mapGet (m ++ m2) k = mapGet m2 k := by
  induction m with
  | nil => simp
  | cons p rest ih =>
    obtain ⟨k2, w⟩ := p
    rw [mapGet] at h
    by_cases h2 : k2 = k
    · simp [h2] at h
    · simp [h2] at h
      simpa [mapGet, h2] using ih h

theorem mapGet_mapEntry_self (m : List (String × Value)) (k : String) (d : Value) :
    mapGet (mapEntry m k d) k = some ((mapGet m k).getD d) := by
  rw [mapEntry]
  cases h : mapGet m k with
  | some v => simp [h]
  | none => simp [mapGet_append_right m [(k, d)] k h, mapGet]

/-! ## Path evaluator lemmas -/

theorem padForce_spec (a : List Value) (i : Int) :
    (padForce a i).2 < (padForce a i).1.length ∧
      abs_index i (padForce a i).1.length = .ok (padForce a i).2 := by
  by_cases hpos : 0 ≤ i
  · have hfirst : abs_index i a.length = .ok i.toNat := by rw [abs_index]; simp [hpos]
    by_cases hl : a.length ≤ i.toNat
    · have hlen : (a ++ List.replicate (i.toNat + 1 - a.length) Value.nil).length = i.toNat + 1 := by
        simp
        omega
      rw [padForce, hfirst]
      simp only [hl, if_true, hlen]
      refine ⟨by omega, ?_⟩
      rw [abs_index]
      simp [hpos]
    · rw [padForce, hfirst]
      simp only [hl, if_false]
      refine ⟨by omega, ?_⟩
      rw [abs_index]
      simp [hpos]
  · have hneg1 : 1 ≤ i.natAbs := by omega
    by_cases hle : i.natAbs ≤ a.length
    · have hfirst : abs_index i a.length = .ok (a.length - i.natAbs) := by
        rw [abs_index]
        simp [hpos, hle]
      have hnp : ¬ a.length ≤ a.length - i.natAbs := by omega
      rw [padForce, hfirst]
      simp only [hnp, if_false]
      refine ⟨by omega, ?_⟩
      rw [abs_index]
      simp [hpos, hle]
    · have h2 : ((a.length : Int) + i).natAbs = i.natAbs - a.length := by omega
      have hfirst : abs_index i a.length = .error (i.natAbs - a.length) := by
        rw [abs_index]
        simp [hpos, hle, h2]
      rw [padForce, hfirst]
      have hlen : (List.replicate (i.natAbs - a.length) Value.nil ++ a).length = i.natAbs := by
        simp
        omega
      simp only [hlen]
      refine ⟨by omega, ?_⟩
      rw [abs_index]
      simp [hpos]

theorem gm_get (e : Expression) (root v : Value) (f : Value → Value)
    (h : e.get_mut_forcibly root = some (v, f)) :
    ∀ w, e.get (f w) = some w := by
  induction e generalizing root v f with
  | identifier id =>
    cases root
    case table m =>
      rw [Expression.get_mut_forcibly] at h
      simp only [Option.some.injEq, Prod.mk.injEq] at h
      obtain ⟨-, rfl⟩ := h
      intro w
      simp [Expression.get, mapGet_mapSet_self]
    all_goals simp [Expression.get_mut_forcibly] at h
  | child e key ih =>
    rw [Expression.get_mut_forcibly] at h
    cases hgm : e.get_mut_forcibly root with
    | none => rw [hgm] at h; simp at h
    | some p =>
      obtain ⟨pv, pf⟩ := p
      rw [hgm] at h
      simp only [Option.some.injEq, Prod.mk.injEq] at h
      obtain ⟨-, rfl⟩ := h
      intro w
      rw [Expression.get]
      beta_reduce
      rw [ih _ _ _ hgm]
      simp [mapGet_mapSet_self]
  | subscript e i ih =>
    rw [Expression.get_mut_forcibly] at h
    cases hgm : e.get_mut_forcibly root with
    | none => rw [hgm] at h; simp at h
    | some p =>
      obtain ⟨pv, pf⟩ := p
      rw [hgm] at h
      simp only [Option.some.injEq, Prod.mk.injEq] at h
      obtain ⟨-, rfl⟩ := h
      intro w
      rw [Expression.get]
      beta_reduce
      rw [ih _ _ _ hgm]
      have hp := padForce_spec (asArray pv) i
      simp only [List.length_set, hp.2]
      exact List.getElem?_set_self hp.1

theorem gm_isSome_of_table (e : Expression) (m : List (String × Value)) :
    (e.get_mut_forcibly (.table m)).isSome := by
  induction e generalizing m with
  | identifier id => simp [Expression.get_mut_forcibly]
  | child e key ih =>
    rw [Expression.get_mut_forcibly]
    cases hgm : e.get_mut_forcibly (.table m) with
    | none =>
      have h2 := ih m
      rw [hgm] at h2
      simp at h2
    | some p => simp
  | subscript e i ih =>
    rw [Expression.get_mut_forcibly]
    cases hgm : e.get_mut_forcibly (.table m) with
    | none =>
      have h2 := ih m
      rw [hgm] at h2
      simp at h2
    | some p => simp

theorem gm_none_iff (e : Expression) (root : Value) :
    e.get_mut_forcibly root = none ↔ root.isTable = false := by
  constructor
  · intro h
    cases root
    case table m =>
      have h2 := gm_isSome_of_table e m
      rw [h] at h2
      simp at h2
    all_goals simp [Value.isTable]
  · intro h
    induction e with
    | identifier id => cases root <;> simp_all [Expression.get_mut_forcibly, Value.isTable]
    | child e key ih => rw [Expression.get_mut_forcibly, ih]
    | subscript e i ih => rw [Expression.get_mut_forcibly, ih]

theorem get_some_gm (e : Expression) (root v : Value) (h : e.get root = some v) :
    ∃ f, e.get_mut_forcibly root = some (v, f) := by
  induction e generalizing v with
  | identifier id =>
    cases root
    case table m =>
      rw [Expression.get] at h
      refine ⟨fun w => .table (mapSet (mapEntry m id .nil) id w), ?_⟩
      rw [Expression.get_mut_forcibly]
      simp [mapEntry, h]
    all_goals simp [Expression.get] at h
  | child e key ih =>
    rw [Expression.get] at h
    cases hg : e.get root with
    | none => rw [hg] at h; simp at h
    | some pv =>
      rw [hg] at h
      cases pv <;> simp at h
      case table pm =>
        obtain ⟨f, hf⟩ := ih _ hg
        refine ⟨fun w => f (.table (mapSet (mapEntry pm key .nil) key w)), ?_⟩
        rw [Expression.get_mut_forcibly, hf]
        simp [asTable, mapEntry, h]
  | subscript e i ih =>
    rw [Expression.get] at h
    cases hg : e.get root with
    | none => rw [hg] at h; simp at h
    | some pv =>
      rw [hg] at h
      cases pv <;> simp at h
      case array a =>
        cases hi : abs_index i a.length with
        | ok u =>
          simp only [hi] at h
          obtain ⟨f, hf⟩ := ih _ hg
          have hu : u < a.length := by
            by_contra hcon
            rw [List.getElem?_eq_none (by omega)] at h
            simp at h
          have hpf : padForce (asArray (Value.array a)) i = (a, u) := by
            rw [asArray, padForce, hi]
            simp [Nat.not_le.mpr hu]
          refine ⟨fun w => f (.array (a.set u w)), ?_⟩
          rw [Expression.get_mut_forcibly, hf]
          simp only [hpf]
          simp [List.getD_eq_getElem?_getD, h]
        | error n => simp [hi] at h

theorem set_identifier_nonTable (id : String) (root V : Value) (hV : V.isTable = false) :
    (Expression.identifier id).set root V = .table (mapSet (asTable root) id V) := by
  cases V <;> simp [Value.isTable] at hV <;> simp [Expression.set]

theorem set_get_roundtrip (e : Expression) (m : List (String × Value)) (V : Value)
    (hV : V.isTable = false) : e.get (e.set (.table m) V) = some V := by
  cases e with
  | identifier id =>
    rw [set_identifier_nonTable id _ V hV]
    simp [Expression.get, asTable, mapGet_mapSet_self]
  | child e key =>
    obtain ⟨⟨p, f⟩, hgm⟩ := Option.isSome_iff_exists.mp (gm_isSome_of_table e m)
    rw [Expression.set]
    simp only [hgm]
    rw [set_identifier_nonTable key _ V hV]
    rw [Expression.get]
    simp only [gm_get e _ _ _ hgm]
    simp [mapGet_mapSet_self]
  | subscript e i =>
    obtain ⟨⟨p, f⟩, hgm⟩ := Option.isSome_iff_exists.mp (gm_isSome_of_table e m)
    rw [Expression.set]
    simp only [hgm]
    rw [Expression.get]
    simp only [gm_get e _ _ _ hgm]
    have hp := padForce_spec (asArray p) i
    simp [List.length_set, hp.2, List.getElem?_set_self hp.1]

theorem mapGet_append_left (m m2 : List (String × Value)) (k : String) (v : Value)
    (h : mapGet m k = some v) : mapGet (m ++ m2) k = some v := by
  induction m with
  | nil => simp [mapGet] at h
  | cons p rest ih =>
    obtain ⟨k2, w⟩ := p
    rw [mapGet] at h
    by_cases h2 : k2 = k
    · simp [h2] at h
      subst h
      simp [mapGet, h2]
    · simp [h2] at h
      simp [mapGet, h2, ih h]

theorem mapGet_mapEntry_ne (m : List (String × Value)) (k k2 : String) (d : Value)
    (h : k2 ≠ k) : mapGet (mapEntry m k d) k2 = mapGet m k2 := by
  rw [mapEntry]
  cases hm : mapGet m k with
  | some v => rfl
  | none =>
    cases hm2 : mapGet m k2 with
    | some v => exact mapGet_append_left m [(k, d)] k2 v hm2
    | none =>
      rw [mapGet_append_right m [(k, d)] k2 hm2]
      simp [mapGet, Ne.symm h, hm2]

theorem mapGet_eq_none_iff (m : List (String × Value)) (k : String) :
    mapGet m k = none ↔ k ∉ m.map Prod.fst := by
  induction m with
  | nil => simp [mapGet]
  | cons p rest ih =>
    obtain ⟨k2, v⟩ := p
    by_cases h : k2 = k
    · subst h
      simp [mapGet]
    · simp [mapGet, h, Ne.symm h, ih]

theorem set_identifier_isTable (id : String) (root v : Value) :
    ((Expression.identifier id).set root v).isTable = true := by
  cases v <;> simp [Expression.set, Value.isTable]

theorem mapGet_set_identifier_ne (id k : String) (h : k ≠ id) (t v : Value) :
    mapGet (asTable ((Expression.identifier id).set t v)) k = mapGet (asTable t) k := by
  cases v <;>
    simp [Expression.set, asTable, mapGet_mapSet_ne _ _ _ _ h, mapGet_mapEntry_ne _ _ _ _ h]

theorem mapGet_set_identifier_self_nonTable (id : String) (t v : Value)
    (hv : v.isTable = false) :
    mapGet (asTable ((Expression.identifier id).set t v)) id = some v := by
  rw [set_identifier_nonTable id t v hv]
  simp [asTable, mapGet_mapSet_self]

theorem setEntries_isTable (V : List (String × Value)) :
    ∀ t : Value, t.isTable = true → (setEntries V t).isTable = true := by
  induction V with
  | nil =>
    intro t ht
    simpa [setEntries] using ht
  | cons p rest ih =>
    intro t ht
    obtain ⟨k, v⟩ := p
    rw [setEntries]
    exact ih _ (set_identifier_isTable k t v)

theorem setEntries_lookup_notin (V : List (String × Value)) :
    ∀ (t : Value) (k : String), mapGet V k = none →
      mapGet (asTable (setEntries V t)) k = mapGet (asTable t) k := by
  induction V with
  | nil =>
    intro t k h
    simp [setEntries]
  | cons p rest ih =>
    intro t k h
    obtain ⟨k2, v2⟩ := p
    rw [mapGet] at h
    by_cases h2 : k2 = k
    · simp [h2] at h
    · simp only [h2, if_false] at h
      rw [setEntries, ih _ k h, mapGet_set_identifier_ne k2 k (Ne.symm h2)]

theorem setEntries_lookup_some_nonTable (V : List (String × Value)) :
    ∀ (t : Value) (k : String) (v : Value),
      (V.map Prod.fst).Nodup → mapGet V k = some v → v.isTable = false →
      mapGet (asTable (setEntries V t)) k = some v := by
  induction V with
  | nil =>
    intro t k v _ h _
    simp [mapGet] at h
  | cons p rest ih =>
    intro t k v hnd h hv
    obtain ⟨k2, v2⟩ := p
    rw [List.map_cons, List.nodup_cons] at hnd
    rw [mapGet] at h
    by_cases h2 : k2 = k
    · subst h2
      simp only [if_true] at h
      have hveq : v2 = v := by injection h
      subst hveq
      rw [setEntries]
      have hrest : mapGet rest k2 = none := by
        rw [mapGet_eq_none_iff]
        exact hnd.1
      rw [setEntries_lookup_notin rest _ k2 hrest]
      exact mapGet_set_identifier_self_nonTable k2 t v2 hv
    · simp only [h2, if_false] at h
      rw [setEntries]
      exact ih _ k v hnd.2 h hv

/-! ## Index-wise array merge lemmas -/

theorem mergeValues_nil (b : List Value) : mergeValues [] b = b := by
  induction b with
  | nil => rfl
  | cons w rest ih => rw [mergeValues, ih]

theorem mergeValues_length (a b : List Value) :
    (mergeValues a b).length = max a.length b.length := by
  induction b generalizing a with
  | nil => simp [mergeValues]
  | cons w rest ih =>
    cases a with
    | nil => simp [mergeValues_nil]
    | cons v a2 =>
      rw [mergeValues]
      simp [ih]
      omega

theorem mergeValues_getElem_left (a b : List Value) (i : Nat) (hb : b.length ≤ i)
    (ha : i < a.length) : (mergeValues a b)[i]? = a[i]? := by
  induction b generalizing a i with
  | nil => simp [mergeValues]
  | cons w rest ih =>
    cases a with
    | nil => simp at ha
    | cons v a2 =>
      cases i with
      | zero => simp at hb
      | succ j =>
        rw [mergeValues]
        simpa using ih a2 j (by simpa using hb) (by simpa using ha)

theorem mergeValues_getElem_right (a b : List Value) (i : Nat) (ha : a.length ≤ i)
    (hb : i < b.length) : (mergeValues a b)[i]? = b[i]? := by
  induction b generalizing a i with
  | nil => simp at hb
  | cons w rest ih =>
    cases a with
    | nil => rw [mergeValues_nil]
    | cons v a2 =>
      cases i with
      | zero => simp at ha
      | succ j =>
        rw [mergeValues]
        simpa using ih a2 j (by simpa using ha) (by simpa using hb)

theorem mergeValues_getElem_both (a b : List Value) (i : Nat) (v w : Value)
    (hv : a[i]? = some v) (hw : b[i]? = some w) :
    (mergeValues a b)[i]? = some (v.merge w) := by
  induction b generalizing a i with
  | nil => simp at hw
  | cons w2 rest ih =>
    cases a with
    | nil => simp at hv
    | cons v2 a2 =>
      cases i with
      | zero =>
        simp only [List.getElem?_cons_zero, Option.some.injEq] at hv hw
        subst hv
        subst hw
        rw [mergeValues]
        simp
      | succ j =>
        simp only [List.getElem?_cons_succ] at hv hw
        rw [mergeValues]
        simpa using ih a2 j hv hw

/-! ## Small computation lemmas -/

theorem asTable_of_not_table (root : Value) (h : root.isTable = false) : asTable root = [] := by
  cases root <;> simp_all [Value.isTable, asTable]

theorem gm_identifier_found (id : String) (m : List (String × Value)) (v0 : Value)
    (h : mapGet m id = some v0) :
    (Expression.identifier id).get_mut_forcibly (.table m) =
      some (v0, fun w => .table (mapSet m id w)) := by
  rw [Expression.get_mut_forcibly]
  simp [mapEntry, h]

theorem set_append_length (xs : List Value) (x v : Value) :
    (xs ++ [x]).set xs.length v = xs ++ [v] := by
  induction xs with
  | nil => rfl
  | cons y ys ih => simp [List.set, ih]

theorem list_set_getD_self (l : List Value) (i : Nat) (h : i < l.length) :
    l.set i (l[i]?.getD .nil) = l := by
  induction l generalizing i with
  | nil => simp at h
  | cons x xs ih =>
    cases i with
    | zero => simp
    | succ j =>
      simp only [List.getElem?_cons_succ, List.set_cons_succ]
      rw [ih j (by simpa using h)]

theorem pad_set (a : List Value) (u : Nat) (h : a.length ≤ u) (v : Value) :
    (a ++ List.replicate (u + 1 - a.length) Value.nil).set u v =
      a ++ List.replicate (u - a.length) Value.nil ++ [v] := by
  have h1 : u + 1 - a.length = (u - a.length) + 1 := by omega
  rw [h1, List.replicate_succ']
  have h2 : (a ++ List.replicate (u - a.length) Value.nil).length = u := by
    simp
    omega
  have h3 := set_append_length (a ++ List.replicate (u - a.length) Value.nil) Value.nil v
  rw [h2] at h3
  rw [← List.append_assoc]
  exact h3

/-! ## Claim C1 -/

/-- C1 (amended): on a Table root, `get_mut_forcibly` always returns a
writable location and `set` always performs its assignment (read back by
`get` for a non-Table value); wrong-shape intermediates are destroyed,
as the spec's own example shows: on root `{a: 5}`, `set("a.b", 10)`
yields `{a: {b: 10}}`.  (The original claim quantified over every root
Value; a non-Table root makes `get_mut_forcibly` return None — see the
counterexample and C9.) -/
theorem forced_ops_total_on_table_roots :
    (∀ (e : Expression) (m : List (String × Value)),
        (e.get_mut_forcibly (.table m)).isSome) ∧
    (∀ (e : Expression) (m : List (String × Value)) (v : Value),
        v.isTable = false → e.get (e.set (.table m) v) = some v) ∧
    (Expression.child (.identifier "a") "b").set (.table [("a", .i64 5)]) (.i64 10) =
      .table [("a", .table [("b", .i64 10)])] := by
  refine ⟨gm_isSome_of_table, fun e m v hv => set_get_roundtrip e m v hv, ?_⟩
  rw [Expression.set]
  rw [gm_identifier_found "a" _ _ (show mapGet [("a", Value.i64 5)] "a" = some (.i64 5) from rfl)]
  simp [Expression.set, asTable, mapSet]

/-- C1 witness. -/
theorem forced_ops_total_on_table_roots_witness :
    (Expression.identifier "x").get
        ((Expression.identifier "x").set (.table []) (.boolean true)) = some (.boolean true) :=
  forced_ops_total_on_table_roots.2.1 (.identifier "x") [] (.boolean true) rfl

/-- C1 counterexample: on the non-Table root `5`, `get_mut_forcibly`
returns no writable location and `set` through a Child path assigns
nothing. -/
theorem forced_ops_fail_on_scalar_root :
    (Expression.identifier "a").get_mut_forcibly (.i64 5) = none ∧
    (Expression.child (.identifier "a") "b").set (.i64 5) (.i64 10) = .i64 5 := by
  constructor
  · rfl
  · rw [Expression.set]
    rfl

/-! ## Claim C3 -/

/-- C3 (amended): merging an incoming Array into an existing Array does
not replace it wholesale; it combines index-by-index — positions past
the incoming length keep the existing elements, positions past the
existing length append the incoming elements, and common positions merge
recursively (in particular an incoming Nil preserves the existing
element, since merging any value with Nil keeps it).  Merging `[1,2,3]`
with `[9]` yields `[9,2,3]`. -/
theorem array_merge_is_indexwise :
    (∀ a b : List Value, ∃ r : List Value, Value.merge (.array a) (.array b) = .array r ∧
        r.length = max a.length b.length ∧
        (∀ i : Nat, b.length ≤ i → i < a.length → r[i]? = a[i]?) ∧
        (∀ i : Nat, a.length ≤ i → i < b.length → r[i]? = b[i]?) ∧
        (∀ (i : Nat) (v w : Value), a[i]? = some v → b[i]? = some w →
          r[i]? = some (Value.merge v w))) ∧
    (∀ v : Value, v.merge .nil = v) ∧
    Value.merge (.array [.i64 1, .i64 2, .i64 3]) (.array [.i64 9]) =
      .array [.i64 9, .i64 2, .i64 3] := by
  refine ⟨?_, ?_, rfl⟩
  · intro a b
    refine ⟨mergeValues a b, rfl, mergeValues_length a b, ?_, ?_, ?_⟩
    · intro i hb ha
      exact mergeValues_getElem_left a b i hb ha
    · intro i ha hb
      exact mergeValues_getElem_right a b i ha hb
    · intro i v w hv hw
      exact mergeValues_getElem_both a b i v w hv hw
  · intro v
    cases v <;> rfl

/-- C3 witness. -/
theorem array_merge_is_indexwise_witness :
    (asArray (Value.merge (.array [.i64 1, .i64 2, .i64 3]) (.array [.i64 9])))[1]? =
      some (.i64 2) := by
  obtain ⟨r, hr, -, hleft, -, -⟩ :=
    array_merge_is_indexwise.1 [.i64 1, .i64 2, .i64 3] [.i64 9]
  rw [hr]
  rw [show asArray (Value.array r) = r from rfl]
  rw [hleft 1 (by decide) (by decide)]
  rfl

/-- C3 counterexample: as stated, the claim says the incoming array
wins wholesale (`[1,2,3]` merge `[9]` = `[9]`); the merge actually
combines index-by-index, giving `[9,2,3]`. -/
theorem array_merge_not_wholesale :
    Value.merge (.array [.i64 1, .i64 2, .i64 3]) (.array [.i64 9]) =
      .array [.i64 9, .i64 2, .i64 3] ∧
    Value.merge (.array [.i64 1, .i64 2, .i64 3]) (.array [.i64 9]) ≠ .array [.i64 9] := by
  refine ⟨rfl, ?_⟩
  rw [show Value.merge (.array [.i64 1, .i64 2, .i64 3]) (.array [.i64 9]) =
    .array [.i64 9, .i64 2, .i64 3] from rfl]
  simp

/-! ## Claim C5 -/

/-- C5: on an array of length N located by the parent path, `get` with
subscript `-n` (for `1 ≤ n ≤ N`) equals `get` with subscript `N - n`,
and any subscript that resolves outside `[0, N)` after the
negative-to-positive conversion yields None — absence, never an error. -/
theorem negative_subscript_get_equiv (e : Expression) (root : Value) (a : List Value)
    (h : e.get root = some (.array a)) :
    (∀ n : Nat, 1 ≤ n → n ≤ a.length →
        (Expression.subscript e (-(n : Int))).get root =
          (Expression.subscript e ((a.length - n : Nat) : Int)).get root) ∧
    (∀ i : Int, (∀ u : Nat, abs_index i a.length = .ok u → a.length ≤ u) →
        (Expression.subscript e i).get root = none) := by
  constructor
  · intro n h1 h2
    rw [Expression.get, Expression.get]
    simp only [h]
    have e1 : abs_index (-(n : Int)) a.length = .ok (a.length - n) := by
      rw [abs_index]
      have hn : ¬ (0 : Int) ≤ -(n : Int) := by omega
      have hn2 : (-(n : Int)).natAbs = n := by omega
      simp [hn, hn2, h2]
    have e2 : abs_index ((a.length - n : Nat) : Int) a.length = .ok (a.length - n) := by
      rw [abs_index]
      simp
    rw [e1, e2]
  · intro i hi
    rw [Expression.get]
    simp only [h]
    cases habs : abs_index i a.length with
    | ok u =>
      simp only [habs]
      exact List.getElem?_eq_none (hi u habs)
    | error n => simp [habs]

/-- C5 witness. -/
theorem negative_subscript_get_equiv_witness :
    (Expression.subscript (.identifier "a") (-1)).get
        (.table [("a", .array [.i64 7, .i64 8])]) =
      (Expression.subscript (.identifier "a") 1).get
        (.table [("a", .array [.i64 7, .i64 8])]) ∧
    (Expression.subscript (.identifier "a") 2).get
        (.table [("a", .array [.i64 7, .i64 8])]) = none ∧
    (Expression.subscript (.identifier "a") (-3)).get
        (.table [("a", .array [.i64 7, .i64 8])]) = none := by
  have hthm := negative_subscript_get_equiv (.identifier "a")
    (.table [("a", .array [.i64 7, .i64 8])]) [.i64 7, .i64 8] rfl
  refine ⟨?_, ?_, ?_⟩
  · have h2 := hthm.1 1 (by decide) (by decide)
    simpa using h2
  · exact hthm.2 2 (fun u hu => by
      simp only [List.length_cons, List.length_nil] at hu ⊢
      rw [show abs_index 2 2 = .ok 2 from rfl] at hu
      injection hu with hu2
      omega)
  · exact hthm.2 (-3) (fun u hu => by
      simp only [List.length_cons, List.length_nil] at hu
      rw [show abs_index (-3) 2 = .error 1 from rfl] at hu
      exact Except.noConfusion hu)

/-! ## Claim C6 -/

/-- C6: when `set` or `get_mut_forcibly` resolves a subscript on an
array of length `len`: a converted index at or beyond `len` grows the
array with Nil padding so the target index exists (`set("arr[3]", "x")`
on an absent `arr` yields `[Nil, Nil, Nil, "x"]`); a negative index
whose magnitude exceeds `len` left-pads the array with `|len + i|` Nil
entries and the target becomes index 0. -/
theorem subscript_forcing_pads_with_nil :
    (∀ (a : List Value) (i : Int) (v : Value) (u : Nat),
        abs_index i a.length = .ok u → a.length ≤ u →
        (Expression.subscript (.identifier "k") i).set (.table [("k", .array a)]) v =
          .table [("k", .array (a ++ List.replicate (u - a.length) .nil ++ [v]))]) ∧
    (∀ (a : List Value) (i : Int) (v : Value), i < 0 → a.length < i.natAbs →
        (Expression.subscript (.identifier "k") i).set (.table [("k", .array a)]) v =
          .table [("k", .array (v :: (List.replicate (i.natAbs - a.length - 1) .nil ++ a)))]) ∧
    (∀ (a : List Value) (i : Int) (u : Nat),
        abs_index i a.length = .ok u → a.length ≤ u →
        forcedRoot (Expression.subscript (.identifier "k") i) (.table [("k", .array a)]) =
          some (.table [("k", .array (a ++ List.replicate (u + 1 - a.length) .nil))])) ∧
    (∀ (a : List Value) (i : Int), i < 0 → a.length < i.natAbs →
        forcedRoot (Expression.subscript (.identifier "k") i) (.table [("k", .array a)]) =
          some (.table [("k", .array (List.replicate (i.natAbs - a.length) .nil ++ a))])) ∧
    (Expression.subscript (.identifier "arr") 3).set (.table []) (.string "x") =
      .table [("arr", .array [.nil, .nil, .nil, .string "x"])] := by
  have hgm : ∀ a : List Value,
      (Expression.identifier "k").get_mut_forcibly (.table [("k", .array a)]) =
        some (.array a, fun w => .table (mapSet [("k", .array a)] "k" w)) :=
    fun a => gm_identifier_found "k" _ _ rfl
  have hpfok : ∀ (a : List Value) (i : Int) (u : Nat),
      abs_index i a.length = .ok u → a.length ≤ u →
      padForce a i = (a ++ List.replicate (u + 1 - a.length) .nil, u) := by
    intro a i u habs hle
    rw [padForce, habs]
    simp [hle]
  have hpferr : ∀ (a : List Value) (i : Int), i < 0 → a.length < i.natAbs →
      padForce a i = (List.replicate (i.natAbs - a.length) .nil ++ a, 0) := by
    intro a i hneg hlt
    have habs : abs_index i a.length = .error (i.natAbs - a.length) := by
      rw [abs_index]
      have h1 : ¬ (0 : Int) ≤ i := by omega
      have h2 : ¬ i.natAbs ≤ a.length := by omega
      have h3 : ((a.length : Int) + i).natAbs = i.natAbs - a.length := by omega
      simp [h1, h2, h3]
    rw [padForce, habs]
  refine ⟨?_, ?_, ?_, ?_, ?_⟩
  · intro a i v u habs hle
    rw [Expression.set]
    simp only [hgm a, asArray, hpfok a i u habs hle]
    rw [pad_set a u hle v]
    simp [mapSet]
  · intro a i v hneg hlt
    rw [Expression.set]
    simp only [hgm a, asArray, hpferr a i hneg hlt]
    have h1 : i.natAbs - a.length = (i.natAbs - a.length - 1) + 1 := by omega
    rw [h1, List.replicate_succ]
    simp [mapSet]
  · intro a i u habs hle
    rw [forcedRoot, Expression.get_mut_forcibly]
    simp only [hgm a]
    simp only [asArray, hpfok a i u habs hle]
    have hlen : u < (a ++ List.replicate (u + 1 - a.length) Value.nil).length := by
      simp
      omega
    simp [list_set_getD_self _ u hlen, mapSet]
  · intro a i hneg hlt
    rw [forcedRoot, Expression.get_mut_forcibly]
    simp only [hgm a]
    simp only [asArray, hpferr a i hneg hlt]
    have hlen : 0 < (List.replicate (i.natAbs - a.length) Value.nil ++ a).length := by
      simp
      omega
    simp [list_set_getD_self _ 0 hlen, mapSet]
  · rw [Expression.set]
    rw [show (Expression.identifier "arr").get_mut_forcibly (.table []) =
      some (.nil, fun w => .table (mapSet (mapEntry [] "arr" .nil) "arr" w)) from rfl]
    simp [asArray, padForce, abs_index, mapEntry, mapGet, mapSet, List.replicate]

/-- C6 witness. -/
theorem subscript_forcing_pads_with_nil_witness :
    (Expression.subscript (.identifier "k") 2).set
        (.table [("k", .array [.i64 7])]) (.string "y") =
      .table [("k", .array [.i64 7, .nil, .string "y"])] ∧
    (Expression.subscript (.identifier "k") (-3)).set
        (.table [("k", .array [.i64 7])]) (.string "y") =
      .table [("k", .array [.string "y", .nil, .i64 7])] := by
  constructor
  · have h := subscript_forcing_pads_with_nil.1 [.i64 7] 2 (.string "y") 2 (by rfl) (by decide)
    simpa using h
  · have h := subscript_forcing_pads_with_nil.2.1 [.i64 7] (-3) (.string "y")
      (by decide) (by decide)
    simpa using h

/-! ## Claim C9 -/

/-- C9: `get_mut_forcibly` returns None exactly when the root is not a
Table, and always returns a writable slot on Table roots (a missing
root-level key is inserted as Nil).  Consequently `set` through a Child
or Subscript path on a non-Table root leaves the root unchanged, while
`set` through a bare Identifier path first coerces the non-Table root
into an empty Table and proceeds. -/
theorem gm_none_iff_nontable_root :
    (∀ (e : Expression) (root : Value),
        e.get_mut_forcibly root = none ↔ root.isTable = false) ∧
    (∀ (e : Expression) (m : List (String × Value)),
        (e.get_mut_forcibly (.table m)).isSome) ∧
    (∀ (id : String) (m : List (String × Value)), mapGet m id = none →
        ((Expression.identifier id).get_mut_forcibly (.table m)).map Prod.fst = some .nil) ∧
    (∀ (e : Expression) (key : String) (root v : Value), root.isTable = false →
        (Expression.child e key).set root v = root) ∧
    (∀ (e : Expression) (i : Int) (root v : Value), root.isTable = false →
        (Expression.subscript e i).set root v = root) ∧
    (∀ (id : String) (root v : Value), root.isTable = false →
        (Expression.identifier id).set root v = (Expression.identifier id).set (.table []) v) := by
  refine ⟨gm_none_iff, gm_isSome_of_table, ?_, ?_, ?_, ?_⟩
  · intro id m h
    rw [Expression.get_mut_forcibly]
    simp [mapEntry, h, mapGet_append_right m [(id, .nil)] id h, mapGet]
  · intro e key root v h
    rw [Expression.set]
    simp only [(gm_none_iff e root).mpr h]
  · intro e i root v h
    rw [Expression.set]
    simp only [(gm_none_iff e root).mpr h]
  · intro id root v h
    have h0 : asTable root = [] := asTable_of_not_table root h
    have h1 : asTable (Value.table []) = [] := rfl
    cases v <;> simp [Expression.set, h0, h1]

/-- C9 witness. -/
theorem gm_none_iff_nontable_root_witness :
    ((Expression.identifier "b").get_mut_forcibly
        (.table [("a", .i64 1)])).map Prod.fst = some .nil ∧
    (Expression.child (.identifier "a") "b").set (.boolean true) (.i64 1) = .boolean true ∧
    (Expression.identifier "a").set (.string "s") (.i64 1) =
      (Expression.identifier "a").set (.table []) (.i64 1) := by
  refine ⟨gm_none_iff_nontable_root.2.2.1 "b" [("a", .i64 1)] rfl,
    gm_none_iff_nontable_root.2.2.2.1 (.identifier "a") "b" (.boolean true) (.i64 1) rfl,
    gm_none_iff_nontable_root.2.2.2.2.2 "a" (.string "s") (.i64 1) rfl⟩

/-! ## Claim C7 -/

theorem set_identifier_table_get (id : String) (m m0 V : List (String × Value))
    (h : mapGet m id = some (.table m0)) :
    (Expression.identifier id).get ((Expression.identifier id).set (.table m) (.table V)) =
      some (setEntries V (.table m0)) := by
  rw [Expression.set]
  simp only [asTable, mapEntry, h, Option.getD_some]
  simp [Expression.get, mapGet_mapSet_self]

theorem set_child_table_get (e : Expression) (key : String)
    (m mp m0 V : List (String × Value))
    (hg : e.get (.table m) = some (.table mp)) (hk : mapGet mp key = some (.table m0)) :
    (Expression.child e key).get ((Expression.child e key).set (.table m) (.table V)) =
      some (setEntries V (.table m0)) := by
  obtain ⟨f, hgm⟩ := get_some_gm e _ _ hg
  rw [Expression.set]
  simp only [hgm, asTable]
  have hin : (Expression.identifier key).set (.table mp) (.table V) =
      .table (mapSet mp key (setEntries V (.table m0))) := by
    rw [Expression.set]
    simp only [asTable, mapEntry, hk, Option.getD_some]
  rw [hin]
  rw [Expression.get]
  simp only [gm_get e _ _ _ hgm]
  simp [mapGet_mapSet_self]

/-- C7 (corrected): `set` with an incoming Table value deep-merges into
the located slot when the path ends in a key segment (a bare Identifier
or a Child): keys of the existing slot absent from the incoming table
are preserved and each incoming entry is recursively set, with the
incoming side winning at non-Table values; `set` with a non-Table value
wholly replaces the located slot.  (The original claim said this for
every path; a Subscript-terminated path assigns the incoming value —
Table or not — wholesale into the array element: see the
counterexample.) -/
theorem set_table_value_deep_merges :
    (∀ (id : String) (m m0 V : List (String × Value)),
        mapGet m id = some (.table m0) →
        (Expression.identifier id).get
            ((Expression.identifier id).set (.table m) (.table V)) =
          some (setEntries V (.table m0))) ∧
    (∀ (e : Expression) (key : String) (m mp m0 V : List (String × Value)),
        e.get (.table m) = some (.table mp) → mapGet mp key = some (.table m0) →
        (Expression.child e key).get
            ((Expression.child e key).set (.table m) (.table V)) =
          some (setEntries V (.table m0))) ∧
    (∀ (V m0 : List (String × Value)) (k : String), mapGet V k = none →
        mapGet (asTable (setEntries V (.table m0))) k = mapGet m0 k) ∧
    (∀ (V m0 : List (String × Value)) (k : String) (v : Value),
        (V.map Prod.fst).Nodup → mapGet V k = some v → v.isTable = false →
        mapGet (asTable (setEntries V (.table m0))) k = some v) ∧
    (∀ (e : Expression) (m : List (String × Value)) (v : Value), v.isTable = false →
        e.get (e.set (.table m) v) = some v) := by
  refine ⟨set_identifier_table_get, set_child_table_get, ?_, ?_,
    fun e m v hv => set_get_roundtrip e m v hv⟩
  · intro V m0 k h
    rw [setEntries_lookup_notin V _ k h]
    rfl
  · intro V m0 k v hnd h hv
    exact setEntries_lookup_some_nonTable V _ k v hnd h hv

/-- C7 witness: setting Table `{y: 2}` at `a` over root
`{a: {x: 1}}` keeps `x` and adds `y`. -/
theorem set_table_value_deep_merges_witness :
    (Expression.identifier "a").get
        ((Expression.identifier "a").set (.table [("a", .table [("x", .i64 1)])])
          (.table [("y", .i64 2)])) =
      some (setEntries [("y", .i64 2)] (.table [("x", .i64 1)])) ∧
    mapGet (asTable (setEntries [("y", .i64 2)] (.table [("x", .i64 1)]))) "x" =
      some (.i64 1) ∧
    mapGet (asTable (setEntries [("y", .i64 2)] (.table [("x", .i64 1)]))) "y" =
      some (.i64 2) :=
  ⟨set_table_value_deep_merges.1 "a" _ _ _ rfl,
    set_table_value_deep_merges.2.2.1 [("y", .i64 2)] [("x", .i64 1)] "x" rfl,
    set_table_value_deep_merges.2.2.2.1 [("y", .i64 2)] [("x", .i64 1)] "y" (.i64 2)
      (by simp) rfl rfl⟩

/-- C7 counterexample: through a Subscript-terminated path, `set` with a
Table value replaces the array element wholesale instead of
deep-merging (the existing key `x` is lost). -/
theorem subscript_set_table_replaces_wholesale :
    (Expression.subscript (.identifier "a") 0).set
        (.table [("a", .array [.table [("x", .i64 1)]])]) (.table [("y", .i64 2)]) =
      .table [("a", .array [.table [("y", .i64 2)]])] ∧
    Value.table [("y", .i64 2)] ≠ .table [("x", .i64 1), ("y", .i64 2)] := by
  constructor
  · rw [Expression.set]
    rw [gm_identifier_found "a" _ _
      (show mapGet [("a", Value.array [.table [("x", .i64 1)]])] "a" =
        some (.array [.table [("x", .i64 1)]]) from rfl)]
    simp [asArray, padForce, abs_index, mapSet]
  · simp

/-! ## Parser completeness on syntactically valid paths -/

theorem takeWhile_append_all (p : Char → Bool) (s rest : List Char)
    (hs : ∀ c ∈ s, p c = true) (hr : ∀ c, rest.head? = some c → p c = false) :
    (s ++ rest).takeWhile p = s ∧ (s ++ rest).dropWhile p = rest := by
  induction s with
  | nil =>
    simp only [List.nil_append]
    cases rest with
    | nil => simp
    | cons c r =>
      have h := hr c rfl
      simp [List.takeWhile_cons, List.dropWhile_cons, h]
  | cons c s2 ih =>
    have hc := hs c (by simp)
    have ih2 := ih (fun x hx => hs x (by simp [hx]))
    simp [List.takeWhile_cons, List.dropWhile_cons, hc, ih2.1, ih2.2]

theorem raw_ident_complete (s rest : List Char) (hne : s ≠ [])
    (hs : ∀ c ∈ s, isIdentChar c = true)
    (hr : ∀ c, rest.head? = some c → isIdentChar c = false) :
    raw_ident (s ++ rest) = .ok s rest := by
  obtain ⟨ht, hd⟩ := takeWhile_append_all isIdentChar s rest hs hr
  rw [raw_ident, ht, hd]
  cases s with
  | nil => exact absurd rfl hne
  | cons c t => rfl

theorem digit_not_space (c : Char) (h : c.isDigit = true) : isSpaceChar c = false := by
  by_cases h1 : c = ' '
  · subst h1
    exact absurd h (by decide)
  by_cases h2 : c = '\t'
  · subst h2
    exact absurd h (by decide)
  simp [isSpaceChar, h1, h2]

theorem digit_ne_minus (c : Char) (h : c.isDigit = true) : c ≠ '-' := by
  intro he
  subst he
  exact absurd h (by decide)

theorem integer_bracket (sp1 sp2 : Nat) (neg : Bool) (ds rest2 : List Char)
    (hds : ds ≠ []) (hdig : ∀ c ∈ ds, c.isDigit = true)
    (hlo : -(2 ^ 63) ≤ segValue neg ds) (hhi : segValue neg ds < 2 ^ 63) :
    integer (List.replicate sp1 ' ' ++
        ((if neg then ['-'] else []) ++ (ds ++ (List.replicate sp2 ' ' ++ (']' :: rest2))))) =
      .ok (segValue neg ds) (']' :: rest2) := by
  cases ds with
  | nil => exact absurd rfl hds
  | cons d ds2 =>
  have hd : d.isDigit = true := hdig d (by simp)
  have htail : ∀ c : Char,
      (List.replicate sp2 ' ' ++ (']' :: rest2)).head? = some c → c.isDigit = false := by
    intro c hc
    cases sp2 with
    | zero =>
      simp at hc
      subst hc
      decide
    | succ n =>
      rw [List.replicate_succ] at hc
      simp at hc
      subst hc
      decide
  have hdrop2 :
      ((d :: ds2) ++ (List.replicate sp2 ' ' ++ (']' :: rest2))).takeWhile Char.isDigit =
        d :: ds2 ∧
      ((d :: ds2) ++ (List.replicate sp2 ' ' ++ (']' :: rest2))).dropWhile Char.isDigit =
        List.replicate sp2 ' ' ++ (']' :: rest2) :=
    takeWhile_append_all Char.isDigit (d :: ds2) _ hdig htail
  have hsp2 : (List.replicate sp2 ' ' ++ (']' :: rest2)).dropWhile isSpaceChar =
      ']' :: rest2 := by
    have := takeWhile_append_all isSpaceChar (List.replicate sp2 ' ') (']' :: rest2)
      (fun c hc => by
        rw [List.eq_of_mem_replicate hc]
        decide)
      (fun c hc => by
        simp at hc
        subst hc
        decide)
    exact this.2
  have hspdrop : ∀ X : List Char, (∀ c, X.head? = some c → isSpaceChar c = false) →
      (List.replicate sp1 ' ' ++ X).dropWhile isSpaceChar = X := by
    intro X hX
    exact (takeWhile_append_all isSpaceChar (List.replicate sp1 ' ') X
      (fun c hc => by
        rw [List.eq_of_mem_replicate hc]
        decide) hX).2
  rw [integer]
  cases neg with
  | true =>
    simp only [reduceIte, List.singleton_append]
    rw [hspdrop (('-') :: ((d :: ds2) ++ (List.replicate sp2 ' ' ++ (']' :: rest2))))
      (fun c hc => by
        simp at hc
        subst hc
        decide)]
    rw [show stripNeg (('-') :: ((d :: ds2) ++ (List.replicate sp2 ' ' ++ (']' :: rest2)))) =
      (true, (d :: ds2) ++ (List.replicate sp2 ' ' ++ (']' :: rest2))) from by
        simp [stripNeg]]
    simp only [hdrop2.1, hdrop2.2]
    have hn : -(digitsVal (d :: ds2) : Int) = segValue true (d :: ds2) := by
      rw [segValue]
      simp
    simp only [if_true, hn]
    rw [if_pos ⟨hlo, hhi⟩, hsp2]
  | false =>
    simp only [show (if false = true then (['-'] : List Char) else []) = [] from rfl,
      List.nil_append]
    rw [hspdrop ((d :: ds2) ++ (List.replicate sp2 ' ' ++ (']' :: rest2)))
      (fun c hc => by
        simp at hc
        subst hc
        exact digit_not_space d hd)]
    rw [show stripNeg ((d :: ds2) ++ (List.replicate sp2 ' ' ++ (']' :: rest2))) =
      (false, (d :: ds2) ++ (List.replicate sp2 ' ' ++ (']' :: rest2))) from by
        simp [stripNeg, digit_ne_minus d hd]]
    simp only [hdrop2.1, hdrop2.2]
    have hn : (digitsVal (d :: ds2) : Int) = segValue false (d :: ds2) := by
      rw [segValue]
      simp
    simp only [if_false, hn]
    rw [if_pos ⟨hlo, hhi⟩, hsp2]
    rfl

theorem postfix_complete_key (k rest : List Char) (hne : k ≠ [])
    (hk : ∀ c ∈ k, isIdentChar c = true)
    (hr : ∀ c, rest.head? = some c → isIdentChar c = false) :
    postfixOp (renderSeg (.key k) ++ rest) = .ok (.key k) rest := by
  rw [renderSeg]
  rw [show ('.' :: k) ++ rest = '.' :: (k ++ rest) from rfl]
  rw [postfixOp]
  rw [raw_ident_complete k rest hne hk hr]

theorem postfix_complete_idx (sp1 sp2 : Nat) (neg : Bool) (ds rest : List Char)
    (hds : ds ≠ []) (hdig : ∀ c ∈ ds, c.isDigit = true)
    (hlo : -(2 ^ 63) ≤ segValue neg ds) (hhi : segValue neg ds < 2 ^ 63) :
    postfixOp (renderSeg (.idx sp1 neg ds sp2) ++ rest) =
      .ok (.index (segValue neg ds)) rest := by
  rw [renderSeg]
  have hassoc : ('[' :: (List.replicate sp1 ' ' ++ (if neg then ['-'] else []) ++ ds
      ++ List.replicate sp2 ' ' ++ [']'])) ++ rest =
      '[' :: (List.replicate sp1 ' ' ++
        ((if neg then ['-'] else []) ++ (ds ++ (List.replicate sp2 ' ' ++ (']' :: rest))))) := by
    simp
  rw [hassoc, postfixOp, subscriptBody,
    integer_bracket sp1 sp2 neg ds rest hds hdig hlo hhi]
  rfl

theorem renderTail_head_not_ident (segs : List PathSeg) :
    ∀ c : Char, (renderTail segs).head? = some c → isIdentChar c = false := by
  intro c hc
  cases segs with
  | nil => simp [renderTail] at hc
  | cons s rest =>
    rw [renderTail, List.foldr_cons] at hc
    cases s with
    | key k =>
      rw [renderSeg] at hc
      simp at hc
      subst hc
      decide
    | idx sp1 neg ds sp2 =>
      rw [renderSeg] at hc
      simp at hc
      subst hc
      decide

theorem renderSeg_ne_nil (s : PathSeg) : renderSeg s ≠ [] := by
  cases s <;> simp [renderSeg]

theorem repeatFold_complete (segs : List PathSeg) :
    ∀ (acc : Expression) (fuel : Nat), (∀ s ∈ segs, segValid s) →
      (renderTail segs).length < fuel →
      repeatFold acc fuel (renderTail segs) =
        .ok (segs.foldl
          (fun e s =>
            match s with
            | .key k => Expression.child e ⟨k⟩
            | .idx _ neg ds _ => Expression.subscript e (segValue neg ds)) acc) [] := by
  induction segs with
  | nil =>
    intro acc fuel _ hfuel
    cases fuel with
    | zero => simp [renderTail] at hfuel
    | succ f =>
      rw [renderTail]
      rw [repeatFold]
      rfl
  | cons s rest ih =>
    intro acc fuel hv hfuel
    have hvs : segValid s := hv s (by simp)
    have hvr : ∀ x ∈ rest, segValid x := fun x hx => hv x (by simp [hx])
    have hre : renderTail (s :: rest) = renderSeg s ++ renderTail rest := by
      rw [renderTail, List.foldr_cons]
      rfl
    cases fuel with
    | zero => omega
    | succ f =>
      rw [hre, repeatFold]
      cases s with
      | key k =>
        rw [segValid] at hvs
        rw [postfix_complete_key k (renderTail rest) hvs.1 hvs.2
          (renderTail_head_not_ident rest)]
        simp only [applySeg]
        rw [ih (Expression.child acc ⟨k⟩) f hvr (by
          rw [hre] at hfuel
          have hnn := renderSeg_ne_nil (.key k)
          have h1 : 1 ≤ (renderSeg (PathSeg.key k)).length := by
            cases he : renderSeg (.key k) with
            | nil => exact absurd he hnn
            | cons x xs => simp
          simp only [List.length_append] at hfuel
          omega)]
        rfl
      | idx sp1 neg ds sp2 =>
        rw [segValid] at hvs
        have hif := hvs.2.2
        have hlo : -(2 ^ 63) ≤ segValue neg ds := by
          cases neg with
          | true =>
            have hif2 : (digitsVal ds : Int) ≤ 2 ^ 63 := hif
            show -(2 ^ 63 : Int) ≤ -(digitsVal ds : Int)
            exact Int.neg_le_neg hif2
          | false =>
            show -(2 ^ 63 : Int) ≤ (digitsVal ds : Int)
            exact le_trans (by norm_num) (Int.natCast_nonneg _)
        have hhi : segValue neg ds < 2 ^ 63 := by
          cases neg with
          | true =>
            show -(digitsVal ds : Int) < 2 ^ 63
            have h0 := Int.natCast_nonneg (digitsVal ds)
            calc -(digitsVal ds : Int) ≤ 0 := by omega
              _ < 2 ^ 63 := by norm_num
          | false => exact hif
        rw [postfix_complete_idx sp1 sp2 neg ds (renderTail rest) hvs.1 hvs.2.1 hlo hhi]
        simp only [applySeg]
        rw [ih (Expression.subscript acc (segValue neg ds)) f hvr (by
          rw [hre] at hfuel
          have hnn := renderSeg_ne_nil (.idx sp1 neg ds sp2)
          have h1 : 1 ≤ (renderSeg (PathSeg.idx sp1 neg ds sp2)).length := by
            cases he : renderSeg (.idx sp1 neg ds sp2) with
            | nil => exact absurd he hnn
            | cons x xs => simp
          simp only [List.length_append] at hfuel
          omega)]
        rfl

theorem from_str_complete (root : List Char) (segs : List PathSeg)
    (hroot : root ≠ []) (hrootc : ∀ c ∈ root, isIdentChar c = true)
    (hsegs : ∀ s ∈ segs, segValid s) :
    from_str (renderPath root segs) = .ok (buildExpr root segs) := by
  rw [from_str, path, renderPath]
  rw [raw_ident_complete root (renderTail segs) hroot hrootc
    (renderTail_head_not_ident segs)]
  simp only []
  rw [repeatFold_complete segs (.identifier ⟨root⟩) ((renderTail segs).length + 1) hsegs
    (by omega)]
  rw [buildExpr]

/-! ## Claim C2 -/

/-- C2 (amended): every syntactically valid path string parses (to the
expression it denotes); and `set` followed by `get` with the same path
returns exactly the value written whenever the root is a Table and the
value is not a Table.  (The original claim quantified over every root
and every value: on a non-Table root a multi-segment `set` is a no-op
and `get` returns None, and for a Table value `set` deep-merges so the
read-back can contain pre-existing keys — see the counterexample.) -/
theorem valid_path_parse_and_roundtrip :
    (∀ (root : List Char) (segs : List PathSeg),
        root ≠ [] → (∀ c ∈ root, isIdentChar c = true) → (∀ s ∈ segs, segValid s) →
        from_str (renderPath root segs) = .ok (buildExpr root segs)) ∧
    (∀ (e : Expression) (m : List (String × Value)) (V : Value), V.isTable = false →
        e.get (e.set (.table m) V) = some V) :=
  ⟨from_str_complete, fun e m V hV => set_get_roundtrip e m V hV⟩

/-- C2 witness: the valid path `a[-2].b` parses to its expression, and
a set-then-get roundtrip returns the written value. -/
theorem valid_path_parse_and_roundtrip_witness :
    from_str "a[-2].b".data =
      .ok (.child (.subscript (.identifier "a") (-2)) "b") ∧
    (Expression.identifier "x").get
        ((Expression.identifier "x").set (.table []) (.i64 3)) = some (.i64 3) := by
  constructor
  · have h := valid_path_parse_and_roundtrip.1 ['a'] [.idx 0 true ['2'] 0, .key ['b']]
      (by decide) (by decide)
      (by
        intro s hs
        simp only [List.mem_cons, List.not_mem_nil, or_false] at hs
        rcases hs with rfl | rfl
        · exact ⟨by decide, by decide, by decide⟩
        · exact ⟨by decide, by decide⟩)
    rw [show ("a[-2].b".data : List Char) =
      renderPath ['a'] [.idx 0 true ['2'] 0, .key ['b']] from rfl]
    rw [show Expression.child (.subscript (.identifier "a") (-2)) "b" =
      buildExpr ['a'] [.idx 0 true ['2'] 0, .key ['b']] from rfl]
    exact h
  · exact valid_path_parse_and_roundtrip.2 (.identifier "x") [] (.i64 3) rfl

/-- C2 counterexample: on the non-Table root `0`, set-then-get along
`a.b` returns None rather than the written value; and with a Table
value, set-then-get at `a` over root `{a: {x: 1}}` returns the deep
merge `{x: 1, y: 2}`, not the written `{y: 2}`. -/
theorem set_get_roundtrip_fails_in_general :
    (Expression.child (.identifier "a") "b").get
        ((Expression.child (.identifier "a") "b").set (.i64 0) (.i64 1)) = none ∧
    (Expression.identifier "a").get
        ((Expression.identifier "a").set (.table [("a", .table [("x", .i64 1)])])
          (.table [("y", .i64 2)])) =
      some (.table [("x", .i64 1), ("y", .i64 2)]) ∧
    Value.table [("x", .i64 1), ("y", .i64 2)] ≠ .table [("y", .i64 2)] := by
  refine ⟨?_, ?_, by simp⟩
  · rw [Expression.set]
    rfl
  · rw [Expression.set]
    simp only [asTable, mapEntry, mapGet, mapSet, setEntries, Expression.set]
    simp [Expression.get, mapGet, mapSet, mapEntry, setEntries, Expression.set, asTable]

/-! ## Claim C8 -/

/-- C8 (corrected): the path parser accepts as an identifier exactly a
non-empty run of characters from the ASCII set `[a-zA-Z0-9_-]`; an
empty or invalid identifier where one is required is a parse error
whose reported offset is the offending input position.  (The original
claim also allowed non-ASCII Unicode alphabetic characters; those are
rejected — see the counterexample.) -/
theorem identifier_ascii_alphanumeric :
    (∀ s : List Char, s ≠ [] → (∀ c ∈ s, isIdentChar c = true) →
        from_str s = .ok (.identifier ⟨s⟩)) ∧
    (∀ (c : Char) (l : List Char), isIdentChar c = false → from_str (c :: l) = .error 0) ∧
    from_str [] = .error 0 ∧
    from_str "a..".data = .error 2 ∧
    isIdentChar 'a' = true ∧ isIdentChar 'Z' = true ∧ isIdentChar '7' = true ∧
    isIdentChar '_' = true ∧ isIdentChar '-' = true ∧ isIdentChar '!' = false := by
  refine ⟨?_, ?_, rfl, rfl, rfl, rfl, rfl, rfl, rfl, rfl⟩
  · intro s hne hs
    have h := from_str_complete s [] hne hs (by simp)
    rw [renderPath, renderTail] at h
    simpa [buildExpr] using h
  · intro c l h
    rw [from_str, path, raw_ident]
    rw [List.takeWhile_cons, h]
    simp

/-- C8 witness. -/
theorem identifier_ascii_alphanumeric_witness :
    from_str "abcd-ef_9".data = .ok (.identifier "abcd-ef_9") ∧
    from_str "!".data = .error 0 := by
  constructor
  · exact identifier_ascii_alphanumeric.1 "abcd-ef_9".data (by decide) (by decide)
  · exact identifier_ascii_alphanumeric.2.1 '!' [] (by decide)

/-- C8 counterexample: `é` is a (non-ASCII) Unicode alphabetic
character, yet a path made of it does not parse — `raw_ident` only
accepts `('a'..='z', 'A'..='Z', '0'..='9', '_', '-')`. -/
theorem non_ascii_identifier_rejected :
    from_str "é".data = .error 0 ∧ isIdentChar 'é' = false := ⟨rfl, rfl⟩

/-! ## Environment source lemmas -/

theorem toNat_ofNat_valid (n : Nat) (h : n.isValidChar) : (Char.ofNat n).toNat = n := by
  rw [Char.ofNat]
  rw [dif_pos h]
  rfl

theorem toLower_toLower (c : Char) : c.toLower.toLower = c.toLower := by
  rw [Char.toLower, Char.toLower]
  by_cases h : c.toNat ≥ 65 ∧ c.toNat ≤ 90
  · rw [if_pos h]
    have hv : (c.toNat + 32).isValidChar := by
      rw [Nat.isValidChar]
      left
      omega
    have ht := toNat_ofNat_valid (c.toNat + 32) hv
    rw [if_neg (by omega)]
  · rw [if_neg h, if_neg h]

theorem data_mk (l : List Char) : (String.mk l).data = l := rfl

theorem data_append (a b : String) : (a ++ b).data = a.data ++ b.data := rfl

theorem lowerStr_idem (s : String) : lowerStr (lowerStr s) = lowerStr s := by
  rw [lowerStr, lowerStr, data_mk]
  congr 1
  rw [List.map_map]
  exact List.map_congr_left fun c _ => toLower_toLower c

theorem LowerS_lowerStr (s : String) : LowerS (lowerStr s) := by
  intro c hc
  rw [lowerStr, data_mk] at hc
  obtain ⟨d, -, rfl⟩ := List.mem_map.mp hc
  exact toLower_toLower d

theorem lowerStr_append (a b : String) : lowerStr (a ++ b) = lowerStr a ++ lowerStr b := by
  rw [lowerStr, lowerStr, lowerStr, data_append, List.map_append]
  rfl

theorem LowerS_append (a b : String) (ha : LowerS a) (hb : LowerS b) : LowerS (a ++ b) := by
  intro c hc
  rw [data_append] at hc
  rcases List.mem_append.mp hc with h | h
  · exact ha c h
  · exact hb c h

theorem LowerS_empty : LowerS "" := by
  intro c hc
  simp [data_mk] at hc

theorem breakOn_mem (nd : List Char) (l a b : List Char) (h : breakOn nd l = some (a, b)) :
    (∀ c ∈ a, c ∈ l) ∧ (∀ c ∈ b, c ∈ l) := by
  induction l generalizing a b with
  | nil =>
    rw [breakOn] at h
    split at h
    · simp only [Option.some.injEq, Prod.mk.injEq] at h
      obtain ⟨rfl, rfl⟩ := h
      simp
    · simp at h
  | cons c0 r ih =>
    rw [breakOn] at h
    split at h
    · simp only [Option.some.injEq, Prod.mk.injEq] at h
      obtain ⟨rfl, rfl⟩ := h
      exact ⟨by simp, fun c hc => List.mem_of_mem_drop hc⟩
    · cases hbr : breakOn nd r with
      | none => simp [hbr] at h
      | some p =>
        rw [hbr] at h
        simp only [Option.map_some', Option.some.injEq, Prod.mk.injEq] at h
        obtain ⟨rfl, rfl⟩ : c0 :: p.1 = a ∧ p.2 = b := ⟨h.1, h.2⟩
        obtain ⟨ih1, ih2⟩ := ih p.1 p.2 (by rw [hbr])
        constructor
        · intro c hc
          rcases List.mem_cons.mp hc with rfl | hc2
          · simp
          · simp [ih1 c hc2]
        · intro c hc
          simp [ih2 c hc]

theorem splitGo_mem (nd : List Char) :
    ∀ (fuel : Nat) (l seg : List Char), seg ∈ splitGo nd fuel l → ∀ c ∈ seg, c ∈ l := by
  intro fuel
  induction fuel with
  | zero =>
    intro l seg hseg c hc
    rw [splitGo] at hseg
    simp at hseg
    subst hseg
    exact hc
  | succ f ih =>
    intro l seg hseg c hc
    rw [splitGo] at hseg
    cases hb : breakOn nd l with
    | none =>
      rw [hb] at hseg
      simp at hseg
      subst hseg
      exact hc
    | some p =>
      rw [hb] at hseg
      obtain ⟨h1, h2⟩ := breakOn_mem nd l p.1 p.2 (by rw [hb])
      rcases List.mem_cons.mp hseg with rfl | hseg2
      · exact h1 c hc
      · exact h2 c (ih p.2 seg hseg2 c hc)

theorem splitOnL_mem (nd l seg : List Char) (h : seg ∈ splitOnL nd l) : ∀ c ∈ seg, c ∈ l := by
  rw [splitOnL] at h
  split at h
  · simp at h
    subst h
    exact fun c hc => hc
  · exact splitGo_mem nd (l.length + 1) l seg h

theorem replaceGo_mem (nd rep : List Char) :
    ∀ (fuel : Nat) (l : List Char) (c : Char), c ∈ replaceGo nd rep fuel l → c ∈ l ∨ c ∈ rep := by
  intro fuel
  induction fuel with
  | zero =>
    intro l c hc
    rw [replaceGo] at hc
    exact Or.inl hc
  | succ f ih =>
    intro l c hc
    rw [replaceGo] at hc
    cases hb : breakOn nd l with
    | none =>
      rw [hb] at hc
      exact Or.inl hc
    | some p =>
      rw [hb] at hc
      obtain ⟨h1, h2⟩ := breakOn_mem nd l p.1 p.2 (by rw [hb])
      rcases List.mem_append.mp hc with hc2 | hc2
      · rcases List.mem_append.mp hc2 with hc3 | hc3
        · exact Or.inl (h1 c hc3)
        · exact Or.inr hc3
      · rcases ih p.2 c hc2 with hc3 | hc3
        · exact Or.inl (h2 c hc3)
        · exact Or.inr hc3

theorem replaceL_mem (nd rep l : List Char) (c : Char) (h : c ∈ replaceL nd rep l) :
    c ∈ l ∨ c ∈ rep := by
  rw [replaceL] at h
  split at h
  · exact Or.inl h
  · exact replaceGo_mem nd rep (l.length + 1) l c h

theorem mapGet_mem (m : List (String × Value)) (k : String) (v : Value)
    (h : mapGet m k = some v) : (k, v) ∈ m := by
  induction m with
  | nil => simp [mapGet] at h
  | cons p rest ih =>
    obtain ⟨k2, w⟩ := p
    rw [mapGet] at h
    by_cases h2 : k2 = k
    · subst h2
      simp only [if_true] at h
      obtain rfl : w = v := by injection h
      simp
    · simp only [h2, if_false] at h
      simp [ih h]

theorem mem_mapSet (m : List (String × Value)) (k : String) (v : Value) (k2 : String)
    (w : Value) (h : (k2, w) ∈ mapSet m k v) :
    (k2, w) ∈ m ∨ (w = v ∧ (k2 = k ∨ ∃ u, (k2, u) ∈ m)) := by
  induction m with
  | nil =>
    rw [mapSet] at h
    simp at h
    exact Or.inr ⟨h.2, Or.inl h.1⟩
  | cons p rest ih =>
    obtain ⟨k3, w3⟩ := p
    rw [mapSet] at h
    split at h
    · next h3 =>
      rcases List.mem_cons.mp h with heq | hin
      · simp only [Prod.mk.injEq] at heq
        exact Or.inr ⟨heq.2, Or.inl (by rw [heq.1, h3])⟩
      · exact Or.inl (by simp [hin])
    · rcases List.mem_cons.mp h with heq | hin
      · exact Or.inl (by simp [heq])
      · rcases ih hin with h4 | ⟨h4, h5⟩
        · exact Or.inl (by simp [h4])
        · refine Or.inr ⟨h4, ?_⟩
          rcases h5 with h5 | ⟨u, hu⟩
          · exact Or.inl h5
          · exact Or.inr ⟨u, by simp [hu]⟩

theorem foldParts_keysLower (parts : List (List Char)) :
    ∀ v : Value, (∀ part ∈ parts, ∀ c ∈ part, c.toLower = c) → KeysLower v →
      KeysLower (parts.foldl
        (fun value part =>
          match parseUsize part with
          | some index => Value.array ((List.replicate (index + 1) Value.nil).set index value)
          | none => Value.table [(⟨part⟩, value)]) v) := by
  induction parts with
  | nil =>
    intro v _ hv
    simpa using hv
  | cons part rest ih =>
    intro v hparts hv
    rw [List.foldl_cons]
    apply ih _ (fun p hp => hparts p (by simp [hp]))
    cases hu : parseUsize part with
    | some index =>
      simp only [hu]
      apply KeysLower.array
      intro x hx
      rcases List.mem_or_eq_of_mem_set hx with h | h
      · rw [List.eq_of_mem_replicate h]
        exact KeysLower.nil
      · subst h
        exact hv
    | none =>
      simp only [hu]
      refine KeysLower.table _ ?_ ?_
      · intro k w hk
        simp only [List.mem_singleton, Prod.mk.injEq] at hk
        obtain ⟨rfl, -⟩ := hk
        intro c hc
        exact hparts part (by simp) c hc
      · intro k w hk
        simp only [List.mem_singleton, Prod.mk.injEq] at hk
        obtain ⟨-, rfl⟩ := hk
        exact hv

theorem tryParseValue_keysLower (env : Environment) (key v : String) :
    KeysLower (tryParseValue env key v) := by
  have harr : ∀ (sep : String),
      KeysLower (.array ((splitOnL sep.data v.data).map (fun s => .string ⟨s⟩))) := by
    intro sep
    apply KeysLower.array
    intro x hx
    obtain ⟨s2, -, rfl⟩ := List.mem_map.mp hx
    exact KeysLower.string _
  rw [tryParseValue]
  split
  · split
    · exact KeysLower.boolean _
    · split
      · exact KeysLower.i64 _
      · split
        · exact KeysLower.float _
        · split
          · split
            · split
              · exact harr _
              · exact KeysLower.string _
            · exact harr _
          · exact KeysLower.string _
  · exact KeysLower.string _

theorem keysLower_table_elim (m : List (String × Value)) (h : KeysLower (.table m)) :
    (∀ k v, (k, v) ∈ m → LowerS k) ∧ (∀ k v, (k, v) ∈ m → KeysLower v) := by
  cases h with
  | table _ h1 h2 => exact ⟨h1, h2⟩

theorem keysLower_array_elim (a : List Value) (h : KeysLower (.array a)) :
    ∀ v ∈ a, KeysLower v := by
  cases h with
  | array _ h1 => exact h1

theorem merge_keysLowerAux (n : Nat) :
    (∀ a b : Value, sizeOf b ≤ n → KeysLower a → KeysLower b → KeysLower (Value.merge a b)) ∧
    (∀ a b : List (String × Value), sizeOf b ≤ n →
      (∀ k w, (k, w) ∈ a → LowerS k) → (∀ k w, (k, w) ∈ a → KeysLower w) →
      (∀ k w, (k, w) ∈ b → LowerS k) → (∀ k w, (k, w) ∈ b → KeysLower w) →
      ∀ k w, (k, w) ∈ mergeEntries a b → LowerS k ∧ KeysLower w) ∧
    (∀ a b : List Value, sizeOf b ≤ n → (∀ v ∈ a, KeysLower v) → (∀ v ∈ b, KeysLower v) →
      ∀ v ∈ mergeValues a b, KeysLower v) := by
  induction n using Nat.strong_induction_on with
  | _ n ih =>
    refine ⟨?_, ?_, ?_⟩
    · intro a b hn ha hb
      cases b with
      | nil => cases a <;> exact ha
      | boolean bb => cases a <;> exact hb
      | i64 bb => cases a <;> exact hb
      | float bb => cases a <;> exact hb
      | string bb => cases a <;> exact hb
      | table bm =>
        have hbm : sizeOf bm < n := by
          have h1 : sizeOf bm < sizeOf (Value.table bm) := by
            simp only [Value.table.sizeOf_spec]
            omega
          omega
        cases a with
        | table am =>
          obtain ⟨ha1, ha2⟩ := keysLower_table_elim am ha
          obtain ⟨hb1, hb2⟩ := keysLower_table_elim bm hb
          show KeysLower (.table (mergeEntries am bm))
          refine KeysLower.table _ ?_ ?_
          · intro k w hk
            exact (((ih (sizeOf bm) hbm).2.1) am bm le_rfl ha1 ha2 hb1 hb2 k w hk).1
          · intro k w hk
            exact (((ih (sizeOf bm) hbm).2.1) am bm le_rfl ha1 ha2 hb1 hb2 k w hk).2
        | nil => exact hb
        | boolean ab => exact hb
        | i64 ab => exact hb
        | float ab => exact hb
        | string ab => exact hb
        | array ab => exact hb
      | array bb =>
        have hba : sizeOf bb < n := by
          have h1 : sizeOf bb < sizeOf (Value.array bb) := by
            simp only [Value.array.sizeOf_spec]
            omega
          omega
        cases a with
        | array ab =>
          have ha1 := keysLower_array_elim ab ha
          have hb1 := keysLower_array_elim bb hb
          show KeysLower (.array (mergeValues ab bb))
          refine KeysLower.array _ ?_
          exact ((ih (sizeOf bb) hba).2.2) ab bb le_rfl ha1 hb1
        | nil => exact hb
        | boolean ab => exact hb
        | i64 ab => exact hb
        | float ab => exact hb
        | string ab => exact hb
        | table ab => exact hb
    · intro a b hn ha1 ha2 hb1 hb2 k w hm
      cases b with
      | nil =>
        rw [mergeEntries] at hm
        exact ⟨ha1 k w hm, ha2 k w hm⟩
      | cons p rest =>
        obtain ⟨k2, v2⟩ := p
        have hrest : sizeOf rest < n := by
          have h1 : sizeOf rest < sizeOf ((k2, v2) :: rest) := by
            simp only [List.cons.sizeOf_spec]
            omega
          omega
        have hv2 : sizeOf v2 < n := by
          have h1 : sizeOf v2 < sizeOf ((k2, v2) :: rest) := by
            simp only [List.cons.sizeOf_spec, Prod.mk.sizeOf_spec]
            omega
          omega
        rw [mergeEntries] at hm
        cases hget : mapGet a k2 with
        | some old =>
          simp only [hget] at hm
          refine ((ih (sizeOf rest) hrest).2.1) (mapSet a k2 (Value.merge old v2)) rest le_rfl
            ?_ ?_ (fun k3 w3 h3 => hb1 k3 w3 (by simp [h3]))
            (fun k3 w3 h3 => hb2 k3 w3 (by simp [h3])) k w hm
          · intro k3 w3 h3
            rcases mem_mapSet a k2 (Value.merge old v2) k3 w3 h3 with hin | ⟨-, hk3⟩
            · exact ha1 k3 w3 hin
            · rcases hk3 with heqk | ⟨u, hu⟩
              · rw [heqk]
                exact hb1 k2 v2 (by simp)
              · exact ha1 k3 u hu
          · intro k3 w3 h3
            rcases mem_mapSet a k2 (Value.merge old v2) k3 w3 h3 with hin | ⟨rfl, -⟩
            · exact ha2 k3 w3 hin
            · exact ((ih (sizeOf v2) hv2).1) old v2 le_rfl
                (ha2 k2 old (mapGet_mem a k2 old hget)) (hb2 k2 v2 (by simp))
        | none =>
          simp only [hget] at hm
          refine ((ih (sizeOf rest) hrest).2.1) (a ++ [(k2, v2)]) rest le_rfl ?_ ?_
            (fun k3 w3 h3 => hb1 k3 w3 (by simp [h3]))
            (fun k3 w3 h3 => hb2 k3 w3 (by simp [h3])) k w hm
          · intro k3 w3 h3
            rcases List.mem_append.mp h3 with hin | hin
            · exact ha1 k3 w3 hin
            · simp only [List.mem_singleton, Prod.mk.injEq] at hin
              obtain ⟨heqk, -⟩ := hin
              rw [heqk]
              exact hb1 k2 v2 (by simp)
          · intro k3 w3 h3
            rcases List.mem_append.mp h3 with hin | hin
            · exact ha2 k3 w3 hin
            · simp only [List.mem_singleton, Prod.mk.injEq] at hin
              obtain ⟨-, heqw⟩ := hin
              rw [heqw]
              exact hb2 k2 v2 (by simp)
    · intro a b hn ha hb v hv
      cases b with
      | nil =>
        rw [mergeValues] at hv
        exact ha v hv
      | cons w rest =>
        have hrest : sizeOf rest < n := by
          have h1 : sizeOf rest < sizeOf (w :: rest) := by
            simp only [List.cons.sizeOf_spec]
            omega
          omega
        have hw : sizeOf w < n := by
          have h1 : sizeOf w < sizeOf (w :: rest) := by
            simp only [List.cons.sizeOf_spec]
            omega
          omega
        cases a with
        | nil =>
          rw [mergeValues] at hv
          rcases List.mem_cons.mp hv with rfl | hv2
          · exact hb v (by simp)
          · exact ((ih (sizeOf rest) hrest).2.2) [] rest le_rfl (by simp)
              (fun x hx => hb x (by simp [hx])) v hv2
        | cons va aa =>
          rw [mergeValues] at hv
          rcases List.mem_cons.mp hv with rfl | hv2
          · exact ((ih (sizeOf w) hw).1) va w le_rfl (ha va (by simp)) (hb w (by simp))
          · exact ((ih (sizeOf rest) hrest).2.2) aa rest le_rfl
              (fun x hx => ha x (by simp [hx])) (fun x hx => hb x (by simp [hx])) v hv2

theorem merge_keysLower (a b : Value) (ha : KeysLower a) (hb : KeysLower b) :
    KeysLower (Value.merge a b) :=
  (merge_keysLowerAux (sizeOf b)).1 a b le_rfl ha hb

theorem prePattern_lowerS (env : Environment) (pp : String) (h : prePattern env = some pp) :
    LowerS pp := by
  rw [prePattern] at h
  cases hp : env.prefixOpt with
  | none => simp [hp] at h
  | some p =>
    rw [hp] at h
    simp only [Option.map_some', Option.some.injEq] at h
    rw [← h]
    exact LowerS_lowerStr _

theorem key3_chars (key2 sep : String) (h2 : ∀ c ∈ key2.data, c.toLower = c) :
    ∀ c ∈ (if sep ≠ "" then replaceStr key2 sep "." else key2).data, c.toLower = c := by
  intro c hc
  split at hc
  · rw [replaceStr, data_mk] at hc
    rcases replaceL_mem sep.data (".".data) key2.data c hc with hin | hin
    · exact h2 c hin
    · have hd : c = '.' := by
        rw [show (".".data : List Char) = ['.'] from rfl] at hin
        simpa using hin
      subst hd
      decide
  · exact h2 c hc

theorem collector_keysLower (env : Environment) (m m2 : Value) (kv : String × String)
    (hm : KeysLower m) (h : collector env m kv = .ok m2) : KeysLower m2 := by
  simp only [collector] at h
  by_cases hie : env.ignoreEmpty = true ∧ kv.2 = ""
  · rw [if_pos hie] at h
    cases h
    exact hm
  · rw [if_neg hie] at h
    split at h
    · cases h
      exact hm
    · next key2 kept heq =>
      have hfil : LowerS kept ∧ ∀ c ∈ key2.data, c.toLower = c := by
        cases hpp : prePattern env with
        | none =>
          simp only [hpp] at heq
          simp only [Option.some.injEq, Prod.mk.injEq] at heq
          obtain ⟨rfl, rfl⟩ := heq
          exact ⟨LowerS_empty, fun c hc => LowerS_lowerStr kv.1 c hc⟩
        | some pp =>
          simp only [hpp] at heq
          split at heq
          · simp only [Option.some.injEq, Prod.mk.injEq] at heq
            obtain ⟨rfl, rfl⟩ := heq
            refine ⟨?_, ?_⟩
            · split
              · exact prePattern_lowerS env pp hpp
              · exact LowerS_empty
            · intro c hc
              rw [dropPre, data_mk] at hc
              exact LowerS_lowerStr kv.1 c (List.mem_of_mem_drop hc)
          · cases heq
      obtain ⟨hkept, hkey2⟩ := hfil
      have hk3 := key3_chars key2 (env.separator.getD "") hkey2
      split at h
      · cases h
      · next kHead kRest heq2 =>
        cases h
        have hparts : ∀ part ∈ kHead :: kRest, ∀ c ∈ part, c.toLower = c := by
          intro part hp c hc
          rw [← heq2] at hp
          exact hk3 c (splitOnL_mem _ _ _ hp c hc)
        apply merge_keysLower m _ hm
        refine KeysLower.table _ ?_ ?_
        · intro k w hk
          simp only [List.mem_singleton, Prod.mk.injEq] at hk
          obtain ⟨rfl, -⟩ := hk
          refine LowerS_append _ _ hkept ?_
          intro c hc
          rw [data_mk] at hc
          exact hparts kHead (by simp) c hc
        · intro k w hk
          simp only [List.mem_singleton, Prod.mk.injEq] at hk
          obtain ⟨-, rfl⟩ := hk
          refine foldParts_keysLower kRest.reverse _ ?_ ?_
          · intro part hp c hc
            rw [List.mem_reverse] at hp
            exact hparts part (by simp [hp]) c hc
          · exact tryParseValue_keysLower env _ kv.2

theorem collectPairs_keysLower (env : Environment) :
    ∀ (src : List (String × String)) (m m2 : Value),
      KeysLower m → collectPairs env m src = .ok m2 → KeysLower m2 := by
  intro src
  induction src with
  | nil =>
    intro m m2 hm h
    rw [collectPairs] at h
    cases h
    exact hm
  | cons kv rest ih =>
    intro m m2 hm h
    rw [collectPairs] at h
    cases hc : collector env m kv with
    | ok mm =>
      simp only [hc] at h
      exact ih mm m2 (collector_keysLower env m mm kv hm hc) h
    | error e =>
      simp only [hc] at h
      cases h

theorem collect_keysLower (env : Environment) (src : List (String × String))
    (m : List (String × Value)) (h : collect env src = .ok m) : KeysLower (.table m) := by
  rw [collect] at h
  split at h
  · next mm heq =>
    cases h
    exact collectPairs_keysLower env src (.table []) (.table m)
      (KeysLower.table [] (by simp) (by simp)) heq
  · cases h
  · cases h

theorem tryParseValue_ext (e1 e2 : Environment) (h5 : e1.tryParsing = e2.tryParsing)
    (h6 : e1.listSep = e2.listSep) (h7 : e1.listParseKeys = e2.listParseKeys) :
    tryParseValue e1 = tryParseValue e2 := by
  funext key v
  rw [tryParseValue, tryParseValue, h5, h6, h7]

theorem collector_ext (e1 e2 : Environment) (h1 : e1.ignoreEmpty = e2.ignoreEmpty)
    (h2 : prePattern e1 = prePattern e2) (h3 : e1.keepPre = e2.keepPre)
    (h4 : e1.separator = e2.separator) (h5 : e1.tryParsing = e2.tryParsing)
    (h6 : e1.listSep = e2.listSep) (h7 : e1.listParseKeys = e2.listParseKeys) :
    collector e1 = collector e2 := by
  have ht := tryParseValue_ext e1 e2 h5 h6 h7
  funext m kv
  simp only [collector, h1, h2, h3, h4, ht]

theorem collector_lower_key (env : Environment) (m : Value) (k v : String) :
    collector env m (lowerStr k, v) = collector env m (k, v) := by
  simp only [collector, lowerStr_idem]

theorem collectPairs_congr (e1 e2 : Environment) (hc : collector e1 = collector e2) :
    ∀ (src : List (String × String)) (m : Value),
      collectPairs e1 m src = collectPairs e2 m src := by
  intro src
  induction src with
  | nil =>
    intro m
    rw [collectPairs, collectPairs]
  | cons kv rest ih =>
    intro m
    rw [collectPairs, collectPairs, hc]
    cases collector e2 m kv with
    | ok mm => exact ih mm
    | error e => rfl

theorem collectPairs_lower_src (env : Environment) :
    ∀ (src : List (String × String)) (m : Value),
      collectPairs env m (src.map (fun p => (lowerStr p.1, p.2))) = collectPairs env m src := by
  intro src
  induction src with
  | nil => intro m; rfl
  | cons kv rest ih =>
    intro m
    obtain ⟨k, v⟩ := kv
    simp only [List.map_cons]
    rw [collectPairs, collectPairs, collector_lower_key]
    cases collector env m (k, v) with
    | ok mm => exact ih mm
    | error e => rfl

theorem collect_lower_src (env : Environment) (src : List (String × String)) :
    collect env (src.map (fun p => (lowerStr p.1, p.2))) = collect env src := by
  rw [collect, collect, collectPairs_lower_src]

theorem psepResolved_fields (po1 po2 : Option String) (ps sep ls : Option String)
    (lpk : Option (List String)) (ie tp kp : Bool) :
    psepResolved ⟨po1, ps, sep, ls, lpk, ie, tp, kp⟩ =
      psepResolved ⟨po2, ps, sep, ls, lpk, ie, tp, kp⟩ := by
  cases ps <;> cases sep <;> rfl

theorem prePattern_lower (p : String) (ps sep ls : Option String)
    (lpk : Option (List String)) (ie tp kp : Bool) :
    prePattern ⟨some (lowerStr p), ps, sep, ls, lpk, ie, tp, kp⟩ =
      prePattern ⟨some p, ps, sep, ls, lpk, ie, tp, kp⟩ := by
  simp only [prePattern, Option.map_some']
  rw [psepResolved_fields (some (lowerStr p)) (some p) ps sep ls lpk ie tp kp]
  rw [lowerStr_append, lowerStr_append, lowerStr_idem]

theorem collect_lower_pre (p : String) (ps sep ls : Option String)
    (lpk : Option (List String)) (ie tp kp : Bool) (src : List (String × String)) :
    collect ⟨some (lowerStr p), ps, sep, ls, lpk, ie, tp, kp⟩ src =
      collect ⟨some p, ps, sep, ls, lpk, ie, tp, kp⟩ src := by
  have hc := collector_ext ⟨some (lowerStr p), ps, sep, ls, lpk, ie, tp, kp⟩
    ⟨some p, ps, sep, ls, lpk, ie, tp, kp⟩ rfl
    (prePattern_lower p ps sep ls lpk ie tp kp) rfl rfl rfl rfl rfl
  rw [collect, collect, collectPairs_congr _ _ hc]

/-- C10: `Environment::collect` lowercases every environment key and builds
the prefix test pattern lowercased, so that (i) lowercasing the source keys
beforehand does not change the result, (ii) lowercasing the configured
prefix does not change the result (prefix matching is case-insensitive),
and (iii) every table key, at every depth, of a successful result is
lowercase. -/
theorem collect_lowercases_keys :
    (∀ (env : Environment) (src : List (String × String)),
        collect env (src.map (fun p => (lowerStr p.1, p.2))) = collect env src) ∧
    (∀ (p : String) (ps sep ls : Option String) (lpk : Option (List String)) (ie tp kp : Bool)
        (src : List (String × String)),
        collect ⟨some (lowerStr p), ps, sep, ls, lpk, ie, tp, kp⟩ src =
          collect ⟨some p, ps, sep, ls, lpk, ie, tp, kp⟩ src) ∧
    (∀ (env : Environment) (src : List (String × String)) (m : List (String × Value)),
        collect env src = .ok m → KeysLower (.table m)) :=
  ⟨collect_lower_src, collect_lower_pre, collect_keysLower⟩

/-- Witness for C10 at a concrete input: collecting `PRE_A_B=x` with prefix
`PRE` and separator `_` yields the table `{a: {b: "x"}}`, whose keys the
theorem proves lowercase. -/
theorem collect_lowercases_keys_witness :
    collect ⟨some "PRE", none, some "_", none, none, false, false, false⟩
        [("PRE_A_B", "x")] = .ok [("a", Value.table [("b", Value.string "x")])] ∧
    KeysLower (Value.table [("a", Value.table [("b", Value.string "x")])]) :=
  ⟨rfl, collect_lowercases_keys.2.2
    ⟨some "PRE", none, some "_", none, none, false, false, false⟩
    [("PRE_A_B", "x")] [("a", Value.table [("b", Value.string "x")])] rfl⟩

/-- C4: collecting LIST_0_A_0=1, LIST_0_A_2=2, LIST_0_B=3, LIST_1_A_1=4,
LIST_1_B=5 with separator `_` (and value typing on) reconstructs the
two-element list `[{a: [1, Nil, 2], b: 3}, {a: [Nil, 4], b: 5}]` under key
`list`: numeric segments become array indices, gaps are Nil-filled, and
the per-variable partial trees merge together. -/
theorem env_list_reconstruction :
    collect ⟨none, none, some "_", none, none, false, true, false⟩
      [("LIST_0_A_0", "1"), ("LIST_0_A_2", "2"), ("LIST_0_B", "3"),
       ("LIST_1_A_1", "4"), ("LIST_1_B", "5")] =
    .ok [("list", .array [
      .table [("a", .array [.i64 1, .nil, .i64 2]), ("b", .i64 3)],
      .table [("a", .array [.nil, .i64 4]), ("b", .i64 5)]])] := rfl

end ConfigRs
